import Mathlib

/-!
# Verification of `gisim/agent.py` (genius-invokation-gym)

Shallow embedding of the agent module: the greedy dice-cost matcher
(`AttackOnlyAgent.get_dice_idx_greedy`), the single-action round-end policy
(`SimpleAgent.take_action_on_round_end`), the multi-action cursor
(`MultipleActionAgent.take_action`), the generic multi-action round-end
handler (`GenericMultipleAction.yield_actions_on_round_end`) and the concrete
attack policy (`AttackOnlyAgent.take_action_on_play_cards`).

Python fallible operations (list indexing, dict indexing, metadata lookup)
are embedded as `Option`: `none` models an uncaught exception.  Generators
are embedded as lists of the yielded items; the multi-action cursor becomes
explicit state passing of the not-yet-drained suffix.
-/

namespace Gisim

/-- Modelled from the spec: the element-token enum of `gisim.classes.enums`
(not under `src/`).  Seven major elements carry values 1..7 (the agent code
tests `1 <= key.value <= 7`); `NONE` is the default character element;
`OMNI` is the Universal wildcard die; `ANY`, `SAME`, `POWER` are
cost-specification-only keys. -/
inductive ElementType where
  | NONE
  | CRYO
  | HYDRO
  | PYRO
  | ELECTRO
  | GEO
  | DENDRO
  | ANEMO
  | OMNI
  | ANY
  | SAME
  | POWER
deriving DecidableEq, Repr

/-- Modelled from the spec: the integer value of each enum member; the seven
major elements occupy 1..7, matching the agent's `1 <= key.value <= 7` test. -/
def ElementType.value : ElementType → Nat
  | .NONE => 0
  | .CRYO => 1
  | .HYDRO => 2
  | .PYRO => 3
  | .ELECTRO => 4
  | .GEO => 5
  | .DENDRO => 6
  | .ANEMO => 7
  | .OMNI => 8
  | .ANY => 9
  | .SAME => 10
  | .POWER => 11

/-- Modelled from the spec: skill categories used by the attack policy. -/
inductive SkillType where
  | NORMAL_ATTACK
  | ELEMENTAL_SKILL
  | ELEMENTAL_BURST
deriving DecidableEq, Repr

/-- Modelled from the spec: the entity kinds the agent targets with cards
(only the constructors the agent code uses). -/
inductive EntityType where
  | CHARACTER
  | WEAPON
deriving DecidableEq, Repr

/-- Modelled from the spec: the two players; `~player_id` is the opponent. -/
inductive PlayerID where
  | P1
  | P2
deriving DecidableEq, Repr

/-- The `~` operator on `PlayerID` (Python `~self.player_id`). -/
def PlayerID.opp : PlayerID → PlayerID
  | .P1 => .P2
  | .P2 => .P1

/-- Modelled from the spec: match status enum. -/
inductive GameStatus where
  | INITIALIZING
  | RUNNING
  | TERMINATED
deriving DecidableEq, Repr

/-- Modelled from the spec: phase enum. -/
inductive GamePhase where
  | CHANGE_CARD
  | SELECT_ACTIVE_CHARACTER
  | ROLL_DICE
  | PLAY_CARDS
  | ROUND_END
deriving DecidableEq, Repr

/-- Modelled from the spec: the character entity as read by the agent
(`character.health_point`, `character.alive`, `character.power`,
`character.name`). -/
structure Character where
  name : String
  health_point : Int
  alive : Bool
  power : Int
deriving DecidableEq, Repr

/-- Modelled from the spec: a character slot of the player view; the agent
reads `character_info.character`. -/
structure CharacterInfo where
  character : Character
deriving DecidableEq, Repr

/-- Modelled from the spec: the read-only player view.  Character positions
(`CharPos`) are embedded as the underlying `Nat` index (`CharPos` is an int
enum; the code uses both `active_pos` and `active_pos.value` to index). -/
structure PlayerInfo where
  characters : List CharacterInfo
  active_character_position : Nat
  dice_zone : List ElementType
  hand_cards : List String
deriving DecidableEq, Repr

/-- Modelled from the spec: the game snapshot handed to an agent;
`get_player_info` / `get_opponent_info` become projections. -/
structure GameInfo where
  status : GameStatus
  phase : GamePhase
  player_info : PlayerInfo
  opponent_info : PlayerInfo
deriving DecidableEq, Repr

def GameInfo.get_player_info (g : GameInfo) : PlayerInfo := g.player_info

def GameInfo.get_opponent_info (g : GameInfo) : PlayerInfo := g.opponent_info

/-- Modelled from the spec: a skill of a character card
(`{name, skill_type, cost_spec}`).  The cost mapping is embedded as an
insertion-ordered association list, mirroring Python dict iteration order. -/
structure Skill where
  name : String
  skill_type : SkillType
  costs : List (ElementType × Int)
deriving DecidableEq, Repr

/-- Modelled from the spec: the character-card metadata record returned by
`get_character_card`. -/
structure CharacterCard where
  element_type : ElementType
  skills : List Skill
deriving DecidableEq, Repr

/-- Modelled from the spec: `character_card.get_skill(skill_type=...)`
returns the card's skill of the requested type; embedded as the first such
skill, `none` when the card has none (an error in Python). -/
def CharacterCard.get_skill (cc : CharacterCard) (skill_type : SkillType) : Option Skill :=
  cc.skills.find? (fun s => s.skill_type = skill_type)

/-- Python dict indexing `costs[key]` on the cost association list: the value
at the key, `none` for a `KeyError`. -/
def lookupCost (costs : List (ElementType × Int)) (key : ElementType) : Option Int :=
  (costs.find? (fun kv => kv.1 = key)).map (fun kv => kv.2)

/-- The actions emitted by the agents (`gisim.classes.action`), carrying only
the indices the engine needs.  Targets pair a `PlayerID` with position data. -/
inductive Action where
  | ChangeCardsAction (cards_idx : List Nat)
  | ChangeCharacterAction (position : Nat) (dice_idx : List Nat)
  | RollDiceAction (dice_idx : List Nat)
  | UseSkillAction (user_position : Nat) (skill_name : String) (dice_idx : List Nat)
      (skill_targets : List (PlayerID × Nat))
  | UseCardAction (card_idx : Nat) (card_target : List (PlayerID × EntityType × Nat))
      (dice_idx : List Nat) (card_user_pos : Nat)
  | DeclareEndAction
deriving DecidableEq, Repr

/-! ## The greedy dice matcher (`AttackOnlyAgent.get_dice_idx_greedy`)

The matcher walks the cost mapping in order, mutating `dice_idx` (the
selection, in selection order) and `used` (one flag per die).  We embed the
mutable pair as `MatchState` and each of the code's scanning `for` loops over
`enumerate(dice)` as a recursion over the index-paired dice list.  A `return
[]` taken on a failure path is embedded as `none`; reaching the end of the
loop yields `some` of the final state. -/

/-- The matcher's mutable state: the selection so far (`dice_idx`, in
selection order) and the per-die `used` flags. -/
structure MatchState where
  dice_idx : List Nat
  used : List Bool
deriving DecidableEq, Repr

/-- Python `enumerate`, index-pairing a dice list starting at `k`. -/
def enumFrom (k : Nat) : List ElementType → List (Nat × ElementType)
  | [] => []
  | d :: rest => (k, d) :: enumFrom (k + 1) rest

/-- Python `enumerate(dice)`. -/
def enumerate (dice : List ElementType) : List (Nat × ElementType) :=
  enumFrom 0 dice

/-- One scanning loop of the major-element and ANY branches:
`for idx, die in enumerate(dice): if used[idx]: continue; if idx not in
dice_idx and pred(die): take it; remaining -= 1; if remaining == 0: break`.
Returns the final `remaining` plus the updated state. -/
def passTakeChecked (pred : ElementType → Bool) :
    List (Nat × ElementType) → Int → MatchState → Int × MatchState
  | [], remaining, st => (remaining, st)
  | (idx, die) :: rest, remaining, st =>
    if st.used.getD idx false then
      passTakeChecked pred rest remaining st
    else if idx ∉ st.dice_idx ∧ pred die = true then
      let st' : MatchState := ⟨st.dice_idx ++ [idx], st.used.set idx true⟩
      if remaining - 1 = 0 then (remaining - 1, st')
      else passTakeChecked pred rest (remaining - 1) st'
    else
      passTakeChecked pred rest remaining st

/-- Major-element branch (`1 <= key.value <= 7`): exact-element pass, then an
OMNI pass if dice are still owed, then `return []` if still short. -/
def processMajor (dice_enum : List (Nat × ElementType)) (key : ElementType) (val : Int)
    (st : MatchState) : Option MatchState :=
  let r := passTakeChecked (fun die => die == key) dice_enum val st
  let r := if r.1 > 0 then passTakeChecked (fun die => die == ElementType.OMNI) dice_enum r.1 r.2
           else r
  if r.1 > 0 then none else some r.2

/-- ANY branch: a pass over dice whose element differs from the character's
(this includes OMNI dice), then a pass over character-element dice, then an
OMNI pass, then `return []` if still short. -/
def processAny (dice_enum : List (Nat × ElementType)) (char_element : ElementType) (val : Int)
    (st : MatchState) : Option MatchState :=
  let r := passTakeChecked (fun die => die != char_element) dice_enum val st
  let r := if r.1 > 0 then passTakeChecked (fun die => die == char_element) dice_enum r.1 r.2
           else r
  let r := if r.1 > 0 then passTakeChecked (fun die => die == ElementType.OMNI) dice_enum r.1 r.2
           else r
  if r.1 > 0 then none else some r.2

/-- The elements of the not-yet-used dice, in dice order
(`[dice[idx] for idx, die_used in enumerate(used) if not die_used]`). -/
def unusedElems (dice_enum : List (Nat × ElementType)) (used : List Bool) : List ElementType :=
  (dice_enum.filter (fun p => !(used.getD p.1 false))).map (fun p => p.2)

/-- The keys of a `Counter` built from a list: each element once, in
first-occurrence order. -/
def firstOccKeys : List ElementType → List ElementType
  | [] => []
  | e :: rest => e :: (firstOccKeys rest).filter (fun x => x ≠ e)

/-- The SAME branch's `dice_counter` as an insertion-ordered association
list: counts of the unused dice, with `OMNI` and the character element
appended with their (necessarily 0) counts when absent. -/
def counterItems (dice_enum : List (Nat × ElementType)) (used : List Bool)
    (char_element : ElementType) : List (ElementType × Int) :=
  let elems := unusedElems dice_enum used
  let keys := firstOccKeys elems
  let keys := if ElementType.OMNI ∈ keys then keys else keys ++ [ElementType.OMNI]
  let keys := if char_element ∈ keys then keys else keys ++ [char_element]
  keys.map (fun e => (e, (elems.count e : Int)))

/-- Stable insertion (ascending by count) mirroring Python's stable
`sorted(..., key=lambda item: item[1])`: a new item goes after every already
placed item of smaller-or-equal count. -/
def insertAsc (x : ElementType × Int) : List (ElementType × Int) → List (ElementType × Int)
  | [] => [x]
  | y :: ys => if y.2 < x.2 then y :: insertAsc x ys else x :: y :: ys

/-- Stable ascending-by-count sort (Python `sorted` is stable). -/
def sortAsc : List (ElementType × Int) → List (ElementType × Int)
  | [] => []
  | x :: rest => insertAsc x (sortAsc rest)

/-- Stable insertion, descending by count, mirroring
`sorted(..., key=lambda item: item[1], reverse=True)`. -/
def insertDesc (x : ElementType × Int) : List (ElementType × Int) → List (ElementType × Int)
  | [] => [x]
  | y :: ys => if x.2 < y.2 then y :: insertDesc x ys else x :: y :: ys

/-- Stable descending-by-count sort. -/
def sortDesc : List (ElementType × Int) → List (ElementType × Int)
  | [] => []
  | x :: rest => insertDesc x (sortDesc rest)

/-- SAME strategy step 1's scan of the ascending counter: the first element
that is neither `OMNI` nor the character's element and whose count reaches
`val` (the loop `continue`s over every other item). -/
def findStep1 (char_element : ElementType) (val : Int) :
    List (ElementType × Int) → Option ElementType
  | [] => none
  | (element, cnt) :: rest =>
    if element = ElementType.OMNI ∨ element = char_element then
      findStep1 char_element val rest
    else if val ≤ cnt then some element
    else findStep1 char_element val rest

/-- SAME strategy step 2's scan of the descending counter: the loop body ends
in a bare `break`, so only the first non-`OMNI`, non-character item is ever
considered. -/
def findStep2 (char_element : ElementType) :
    List (ElementType × Int) → Option (ElementType × Int)
  | [] => none
  | (element, cnt) :: rest =>
    if element = ElementType.OMNI ∨ element = char_element then
      findStep2 char_element rest
    else some (element, cnt)

/-- SAME step 1's consumption loop: take unused dice equal to `element`,
breaking when `remaining` hits zero (checked after each take). -/
def passSame1 (element : ElementType) :
    List (Nat × ElementType) → Int → MatchState → Int × MatchState
  | [], remaining, st => (remaining, st)
  | (idx, die) :: rest, remaining, st =>
    if st.used.getD idx false then
      passSame1 element rest remaining st
    else if element = die then
      let st' : MatchState := ⟨st.dice_idx ++ [idx], st.used.set idx true⟩
      if remaining - 1 = 0 then (remaining - 1, st')
      else passSame1 element rest (remaining - 1) st'
    else passSame1 element rest remaining st

/-- SAME step 2's consumption loop, which never breaks early: every unused
die of `element` is taken (decrementing `other_remaining`), and OMNI dice are
taken while `omni_remaining > 0`. -/
def passSame2 (element : ElementType) :
    List (Nat × ElementType) → Int → Int → MatchState → Int × Int × MatchState
  | [], other_remaining, omni_remaining, st => (other_remaining, omni_remaining, st)
  | (idx, die) :: rest, other_remaining, omni_remaining, st =>
    if st.used.getD idx false then
      passSame2 element rest other_remaining omni_remaining st
    else if element = die then
      passSame2 element rest (other_remaining - 1) omni_remaining
        ⟨st.dice_idx ++ [idx], st.used.set idx true⟩
    else if omni_remaining > 0 ∧ die = ElementType.OMNI then
      passSame2 element rest other_remaining (omni_remaining - 1)
        ⟨st.dice_idx ++ [idx], st.used.set idx true⟩
    else passSame2 element rest other_remaining omni_remaining st

/-- SAME step 3's consumption loop: take unused character-element dice
(decrementing `char_elem_remaining` unconditionally) and OMNI dice while
`omni_remaining > 0`; after every iteration — consuming or not — break with
`satisfied = True` once both counters are zero.  The `Bool` is `satisfied`. -/
def passSame3 (char_element : ElementType) :
    List (Nat × ElementType) → Int → Int → MatchState → Int × Int × MatchState × Bool
  | [], char_elem_remaining, omni_remaining, st => (char_elem_remaining, omni_remaining, st, false)
  | (idx, die) :: rest, char_elem_remaining, omni_remaining, st =>
    if st.used.getD idx false then
      passSame3 char_element rest char_elem_remaining omni_remaining st
    else
      let next :=
        if char_element = die then
          (char_elem_remaining - 1, omni_remaining,
            (⟨st.dice_idx ++ [idx], st.used.set idx true⟩ : MatchState))
        else if omni_remaining > 0 ∧ die = ElementType.OMNI then
          (char_elem_remaining, omni_remaining - 1,
            (⟨st.dice_idx ++ [idx], st.used.set idx true⟩ : MatchState))
        else (char_elem_remaining, omni_remaining, st)
      if next.1 = 0 ∧ next.2.1 = 0 then (next.1, next.2.1, next.2.2, true)
      else passSame3 char_element rest next.1 next.2.1 next.2.2

/-- SAME strategy step 3 (`char_elem_count + omni_count >= val` fallback),
run on state `st`; `none` is the final `return []`. -/
def processSameStep3 (dice_enum : List (Nat × ElementType)) (char_element : ElementType)
    (val : Int) (items : List (ElementType × Int)) (omni_count : Int) (st : MatchState) :
    Option MatchState :=
  let char_elem_count := ((lookupCost items char_element).getD 0)
  if char_elem_count + omni_count ≥ val then
    let char_elem_remaining := min char_elem_count val
    let omni_remaining := val - char_elem_remaining
    let r := passSame3 char_element dice_enum char_elem_remaining omni_remaining st
    if r.2.2.2 then some r.2.2.1 else none
  else none

/-- SAME branch: counter of unused dice, step 1 (some single eligible element
already has `count ≥ val`), step 2 (largest-count eligible element plus OMNI
fill, first candidate only), step 3 (character element plus OMNI fill),
otherwise `return []`. -/
def processSame (dice_enum : List (Nat × ElementType)) (char_element : ElementType) (val : Int)
    (st : MatchState) : Option MatchState :=
  let items := counterItems dice_enum st.used char_element
  let sortedAsc := sortAsc items
  match findStep1 char_element val sortedAsc with
  | some element => some (passSame1 element dice_enum val st).2
  | none =>
    let omni_count := (lookupCost sortedAsc ElementType.OMNI).getD 0
    let sortedDesc := sortDesc items
    match findStep2 char_element sortedDesc with
    | some (element, cnt) =>
      if omni_count + cnt ≥ val then
        let r := passSame2 element dice_enum cnt (val - cnt) st
        if r.1 = 0 ∧ r.2.1 = 0 then some r.2.2
        else processSameStep3 dice_enum char_element val items omni_count r.2.2
      else processSameStep3 dice_enum char_element val items omni_count st
    | none => processSameStep3 dice_enum char_element val items omni_count st

/-- One iteration of the matcher's `for key, val in cost.items()` loop: major
elements, `ANY` and `SAME` are handled; any other key (notably `POWER`) falls
through every branch and is skipped. -/
def processKey (dice_enum : List (Nat × ElementType)) (char_element : ElementType)
    (key : ElementType) (val : Int) (st : MatchState) : Option MatchState :=
  if 1 ≤ key.value ∧ key.value ≤ 7 then processMajor dice_enum key val st
  else if key = ElementType.ANY then processAny dice_enum char_element val st
  else if key = ElementType.SAME then processSame dice_enum char_element val st
  else some st

/-- The matcher's loop over the cost mapping's entries, in order. -/
def get_dice_idx_greedy_go (dice_enum : List (Nat × ElementType)) (char_element : ElementType) :
    List (ElementType × Int) → MatchState → Option MatchState
  | [], st => some st
  | (key, val) :: rest, st =>
    match processKey dice_enum char_element key val st with
    | none => none
    | some st' => get_dice_idx_greedy_go dice_enum char_element rest st'

/-- `AttackOnlyAgent.get_dice_idx_greedy`, with the failure `return []`
distinguished as `none` and the final `return dice_idx` as `some`. -/
def get_dice_idx_greedy (dice : List ElementType) (cost : List (ElementType × Int))
    (char_element : ElementType := ElementType.NONE) : Option (List Nat) :=
  (get_dice_idx_greedy_go (enumerate dice) char_element cost
      ⟨[], dice.map (fun _ => false)⟩).map (fun st => st.dice_idx)

/-- The Python function's actual return value: the failure paths return the
empty list, conflated with an empty selection. -/
def get_dice_idx_greedy_py (dice : List ElementType) (cost : List (ElementType × Int))
    (char_element : ElementType := ElementType.NONE) : List Nat :=
  (get_dice_idx_greedy dice cost char_element).getD []

/-! ## State invariant: the selection is duplicate-free, in range, and in
sync with the `used` flags -/

/-- Invariant of the matcher state over dice count `n`: the flag array has
length `n`, the selection has no duplicates, and every selected index is in
range with its `used` flag set. -/
def StInv (n : Nat) (st : MatchState) : Prop :=
  st.used.length = n ∧ st.dice_idx.Nodup ∧
    ∀ i ∈ st.dice_idx, i < n ∧ st.used.getD i false = true

/-- All indices of an index-paired dice list are below `n`. -/
def IdxLt (n : Nat) (l : List (Nat × ElementType)) : Prop :=
  ∀ p ∈ l, p.1 < n

theorem getD_set_self (l : List Bool) (i : Nat) (h : i < l.length) (b d : Bool) :
    (l.set i b).getD i d = b := by
  simp [List.getD_eq_getElem?_getD, List.getElem?_set_self, h]

theorem getD_set_ne (l : List Bool) {i j : Nat} (h : i ≠ j) (b d : Bool) :
    (l.set i b).getD j d = l.getD j d := by
  simp [List.getD_eq_getElem?_getD, List.getElem?_set_ne h]

/-- Taking one unused, in-range die preserves the state invariant. -/
theorem StInv.take {n : Nat} {st : MatchState} (inv : StInv n st) {idx : Nat}
    (hlt : idx < n) (hu : st.used.getD idx false = false) :
    StInv n ⟨st.dice_idx ++ [idx], st.used.set idx true⟩ := by
  obtain ⟨hlen, hnd, hmem⟩ := inv
  have hnotmem : idx ∉ st.dice_idx := by
    intro hmem'
    have := (hmem idx hmem').2
    rw [hu] at this
    exact Bool.false_ne_true this
  refine ⟨by simpa using hlen, ?_, ?_⟩
  · simp [List.nodup_append, hnd, hnotmem]
  · intro i hi
    rcases List.mem_append.mp hi with hi | hi
    · obtain ⟨hilt, hiu⟩ := hmem i hi
      have hne : idx ≠ i := fun h => hnotmem (h ▸ hi)
      exact ⟨hilt, by rw [getD_set_ne st.used hne]; exact hiu⟩
    · have : i = idx := by simpa using hi
      subst this
      exact ⟨hlt, getD_set_self st.used i (hlen ▸ hlt) true false⟩

theorem passTakeChecked_inv (pred : ElementType → Bool) {n : Nat}
    (l : List (Nat × ElementType)) (r : Int) (st : MatchState)
    (inv : StInv n st) (hidx : IdxLt n l) :
    StInv n (passTakeChecked pred l r st).2 := by
  induction l generalizing r st with
  | nil => simpa [passTakeChecked] using inv
  | cons p rest ih =>
    obtain ⟨idx, die⟩ := p
    have hlt : idx < n := hidx (idx, die) (List.mem_cons_self _ _)
    have hrest : IdxLt n rest := fun q hq => hidx q (List.mem_cons_of_mem _ hq)
    simp only [passTakeChecked]
    split
    · exact ih r st inv hrest
    next hu =>
      have inv' := inv.take hlt (by simpa using hu)
      split
      · split
        · exact inv'
        · exact ih (r - 1) _ inv' hrest
      · exact ih r st inv hrest

theorem passSame1_inv (element : ElementType) {n : Nat}
    (l : List (Nat × ElementType)) (r : Int) (st : MatchState)
    (inv : StInv n st) (hidx : IdxLt n l) :
    StInv n (passSame1 element l r st).2 := by
  induction l generalizing r st with
  | nil => simpa [passSame1] using inv
  | cons p rest ih =>
    obtain ⟨idx, die⟩ := p
    have hlt : idx < n := hidx (idx, die) (List.mem_cons_self _ _)
    have hrest : IdxLt n rest := fun q hq => hidx q (List.mem_cons_of_mem _ hq)
    simp only [passSame1]
    split
    · exact ih r st inv hrest
    next hu =>
      have inv' := inv.take hlt (by simpa using hu)
      split
      · split
        · exact inv'
        · exact ih (r - 1) _ inv' hrest
      · exact ih r st inv hrest

theorem passSame2_inv (element : ElementType) {n : Nat}
    (l : List (Nat × ElementType)) (ro rm : Int) (st : MatchState)
    (inv : StInv n st) (hidx : IdxLt n l) :
    StInv n (passSame2 element l ro rm st).2.2 := by
  induction l generalizing ro rm st with
  | nil => simpa [passSame2] using inv
  | cons p rest ih =>
    obtain ⟨idx, die⟩ := p
    have hlt : idx < n := hidx (idx, die) (List.mem_cons_self _ _)
    have hrest : IdxLt n rest := fun q hq => hidx q (List.mem_cons_of_mem _ hq)
    simp only [passSame2]
    split
    · exact ih ro rm st inv hrest
    next hu =>
      have inv' := inv.take hlt (by simpa using hu)
      split
      · exact ih (ro - 1) rm _ inv' hrest
      · split
        · exact ih ro (rm - 1) _ inv' hrest
        · exact ih ro rm st inv hrest

theorem passSame3_inv (char_element : ElementType) {n : Nat}
    (l : List (Nat × ElementType)) (rc rm : Int) (st : MatchState)
    (inv : StInv n st) (hidx : IdxLt n l) :
    StInv n (passSame3 char_element l rc rm st).2.2.1 := by
  induction l generalizing rc rm st with
  | nil => simpa [passSame3] using inv
  | cons p rest ih =>
    obtain ⟨idx, die⟩ := p
    have hlt : idx < n := hidx (idx, die) (List.mem_cons_self _ _)
    have hrest : IdxLt n rest := fun q hq => hidx q (List.mem_cons_of_mem _ hq)
    simp only [passSame3]
    split
    · exact ih rc rm st inv hrest
    next hu =>
      have inv' := inv.take hlt (by simpa using hu)
      by_cases hc : char_element = die
      · simp only [if_pos hc]
        split
        · exact inv'
        · exact ih _ _ _ inv' hrest
      · simp only [if_neg hc]
        by_cases hc2 : rm > 0 ∧ die = ElementType.OMNI
        · simp only [if_pos hc2]
          split
          · exact inv'
          · exact ih _ _ _ inv' hrest
        · simp only [if_neg hc2]
          split
          · exact inv
          · exact ih _ _ _ inv hrest

theorem processMajor_inv {n : Nat} {dice_enum : List (Nat × ElementType)}
    {key : ElementType} {val : Int} {st st' : MatchState}
    (inv : StInv n st) (hidx : IdxLt n dice_enum)
    (h : processMajor dice_enum key val st = some st') : StInv n st' := by
  unfold processMajor at h
  simp only [] at h
  have h1 := passTakeChecked_inv (fun die => die == key) dice_enum val st inv hidx
  generalize hR1 : passTakeChecked (fun die => die == key) dice_enum val st = R1 at h h1
  split at h
  · have h2 := passTakeChecked_inv (fun die => die == ElementType.OMNI) dice_enum R1.1 R1.2 h1 hidx
    generalize hR2 :
      passTakeChecked (fun die => die == ElementType.OMNI) dice_enum R1.1 R1.2 = R2 at h h2
    split at h
    · exact absurd h (by simp)
    · obtain rfl : R2.2 = st' := Option.some.inj h
      exact h2
  · obtain rfl : R1.2 = st' := Option.some.inj h
    exact h1

theorem processAny_inv {n : Nat} {dice_enum : List (Nat × ElementType)}
    {char_element : ElementType} {val : Int} {st st' : MatchState}
    (inv : StInv n st) (hidx : IdxLt n dice_enum)
    (h : processAny dice_enum char_element val st = some st') : StInv n st' := by
  unfold processAny at h
  simp only [] at h
  have h1 := passTakeChecked_inv (fun die => die != char_element) dice_enum val st inv hidx
  generalize hR1 : passTakeChecked (fun die => die != char_element) dice_enum val st = R1 at h h1
  split at h
  · have h2 := passTakeChecked_inv (fun die => die == char_element) dice_enum R1.1 R1.2 h1 hidx
    generalize hR2 :
      passTakeChecked (fun die => die == char_element) dice_enum R1.1 R1.2 = R2 at h h2
    split at h
    · have h3 := passTakeChecked_inv (fun die => die == ElementType.OMNI) dice_enum R2.1 R2.2 h2 hidx
      generalize hR3 :
        passTakeChecked (fun die => die == ElementType.OMNI) dice_enum R2.1 R2.2 = R3 at h h3
      split at h
      · exact absurd h (by simp)
      · obtain rfl : R3.2 = st' := Option.some.inj h
        exact h3
    · obtain rfl : R2.2 = st' := Option.some.inj h
      exact h2
  · obtain rfl : R1.2 = st' := Option.some.inj h
    exact h1

theorem processSameStep3_inv {n : Nat} {dice_enum : List (Nat × ElementType)}
    {char_element : ElementType} {val omni_count : Int}
    {items : List (ElementType × Int)} {st st' : MatchState}
    (inv : StInv n st) (hidx : IdxLt n dice_enum)
    (h : processSameStep3 dice_enum char_element val items omni_count st = some st') :
    StInv n st' := by
  unfold processSameStep3 at h
  simp only [] at h
  split at h
  · split at h
    · obtain rfl : _ = st' := Option.some.inj h
      exact passSame3_inv char_element dice_enum _ _ st inv hidx
    · exact absurd h (by simp)
  · exact absurd h (by simp)

theorem processSame_inv {n : Nat} {dice_enum : List (Nat × ElementType)}
    {char_element : ElementType} {val : Int} {st st' : MatchState}
    (inv : StInv n st) (hidx : IdxLt n dice_enum)
    (h : processSame dice_enum char_element val st = some st') : StInv n st' := by
  unfold processSame at h
  simp only [] at h
  split at h
  · obtain rfl : _ = st' := Option.some.inj h
    exact passSame1_inv _ dice_enum val st inv hidx
  · split at h
    · split at h
      · split at h
        · obtain rfl : _ = st' := Option.some.inj h
          exact passSame2_inv _ dice_enum _ _ st inv hidx
        · exact processSameStep3_inv (passSame2_inv _ dice_enum _ _ st inv hidx) hidx h
      · exact processSameStep3_inv inv hidx h
    · exact processSameStep3_inv inv hidx h

theorem processKey_inv {n : Nat} {dice_enum : List (Nat × ElementType)}
    {char_element key : ElementType} {val : Int} {st st' : MatchState}
    (inv : StInv n st) (hidx : IdxLt n dice_enum)
    (h : processKey dice_enum char_element key val st = some st') : StInv n st' := by
  unfold processKey at h
  split at h
  · exact processMajor_inv inv hidx h
  · split at h
    · exact processAny_inv inv hidx h
    · split at h
      · exact processSame_inv inv hidx h
      · obtain rfl : st = st' := Option.some.inj h
        exact inv

theorem get_dice_idx_greedy_go_inv {n : Nat} {dice_enum : List (Nat × ElementType)}
    {char_element : ElementType} (cost : List (ElementType × Int)) (st : MatchState)
    {st' : MatchState} (inv : StInv n st) (hidx : IdxLt n dice_enum)
    (h : get_dice_idx_greedy_go dice_enum char_element cost st = some st') : StInv n st' := by
  induction cost generalizing st with
  | nil =>
    obtain rfl : st = st' := Option.some.inj h
    exact inv
  | cons kv rest ih =>
    obtain ⟨key, val⟩ := kv
    unfold get_dice_idx_greedy_go at h
    cases hpk : processKey dice_enum char_element key val st with
    | none => rw [hpk] at h; exact absurd h (by simp)
    | some st1 =>
      rw [hpk] at h
      exact ih st1 (processKey_inv inv hidx hpk) h

/-- Every index of `enumFrom k l` lies in `[k, k + l.length)`. -/
theorem mem_enumFrom {k : Nat} {l : List ElementType} {p : Nat × ElementType}
    (h : p ∈ enumFrom k l) : k ≤ p.1 ∧ p.1 < k + l.length := by
  induction l generalizing k with
  | nil => simp [enumFrom] at h
  | cons d rest ih =>
    rcases (by simpa [enumFrom] using h : p = (k, d) ∨ p ∈ enumFrom (k + 1) rest) with h | h
    · subst h; simp
    · obtain ⟨h1, h2⟩ := ih h
      exact ⟨Nat.le_of_succ_le h1, by simpa [Nat.succ_add] using h2⟩

theorem enumerate_idxLt (dice : List ElementType) : IdxLt dice.length (enumerate dice) :=
  fun p hp => by simpa using (mem_enumFrom hp).2

/-- The initial matcher state satisfies the invariant. -/
theorem stInv_init (dice : List ElementType) :
    StInv dice.length ⟨[], dice.map (fun _ => false)⟩ :=
  ⟨by simp, List.nodup_nil, by simp⟩

/-- C2: every index returned by `get_dice_idx_greedy` lies in
`[0, len(dice))` and no index appears twice: no die is reused within a key
or across keys.  Stated on the Python-level return value (which is `[]` on
failure, trivially satisfying both properties). -/
theorem matcher_indices_nodup_and_in_range (dice : List ElementType)
    (cost : List (ElementType × Int)) (char_element : ElementType) :
    (get_dice_idx_greedy_py dice cost char_element).Nodup ∧
      ∀ i ∈ get_dice_idx_greedy_py dice cost char_element, i < dice.length := by
  unfold get_dice_idx_greedy_py get_dice_idx_greedy
  cases hgo : get_dice_idx_greedy_go (enumerate dice) char_element cost
      ⟨[], dice.map (fun _ => false)⟩ with
  | none => simp
  | some st' =>
    have inv := get_dice_idx_greedy_go_inv cost _ (stInv_init dice) (enumerate_idxLt dice) hgo
    simp only [Option.map_some', Option.getD_some]
    exact ⟨inv.2.1, fun i hi => (inv.2.2 i hi).1⟩

/-! ## Counting: on success each handled key consumes exactly its required
count of dice (provided the count is at least 1) -/

/-- Weak counting for a checked scanning pass: starting from `remaining ≥ 1`
the final `remaining` is nonnegative and exactly `remaining - remaining'`
indices are appended. -/
theorem passTakeChecked_count (pred : ElementType → Bool) (l : List (Nat × ElementType)) :
    ∀ (r : Int) (st : MatchState), 1 ≤ r →
      0 ≤ (passTakeChecked pred l r st).1 ∧
        ∃ t, (passTakeChecked pred l r st).2.dice_idx = st.dice_idx ++ t ∧
          (t.length : Int) = r - (passTakeChecked pred l r st).1 := by
  induction l with
  | nil =>
    intro r st hr
    exact ⟨by simpa [passTakeChecked] using (by omega : (0:Int) ≤ r),
      ⟨[], by simp [passTakeChecked]⟩⟩
  | cons p rest ih =>
    intro r st hr
    obtain ⟨idx, die⟩ := p
    simp only [passTakeChecked]
    split
    · exact ih r st hr
    · split
      · split
        next hz =>
          refine ⟨by omega, ⟨[idx], by simp, by simp⟩⟩
        next hz =>
          obtain ⟨h0, t, ht, hlen⟩ := ih (r - 1)
            ⟨st.dice_idx ++ [idx], st.used.set idx true⟩ (by omega)
          refine ⟨h0, ⟨idx :: t, by simpa using ht, ?_⟩⟩
          simp only [List.length_cons] at *
          push_cast
          omega
      · exact ih r st hr

/-- Success counting for the major-element branch: with `val ≥ 1`, exactly
`val` indices are appended. -/
theorem processMajor_count {dice_enum : List (Nat × ElementType)} {key : ElementType}
    {val : Int} {st st' : MatchState} (hval : 1 ≤ val)
    (h : processMajor dice_enum key val st = some st') :
    ∃ t, st'.dice_idx = st.dice_idx ++ t ∧ (t.length : Int) = val := by
  unfold processMajor at h
  simp only [] at h
  obtain ⟨h0, t1, ht1, hlen1⟩ := passTakeChecked_count (fun die => die == key) dice_enum val st hval
  generalize hR1 : passTakeChecked (fun die => die == key) dice_enum val st = R1 at *
  split at h
  next hgt =>
    obtain ⟨h0', t2, ht2, hlen2⟩ :=
      passTakeChecked_count (fun die => die == ElementType.OMNI) dice_enum R1.1 R1.2 (by omega)
    generalize hR2 :
      passTakeChecked (fun die => die == ElementType.OMNI) dice_enum R1.1 R1.2 = R2 at *
    split at h
    · exact absurd h (by simp)
    next hgt2 =>
      obtain rfl : R2.2 = st' := Option.some.inj h
      refine ⟨t1 ++ t2, by rw [ht2, ht1, List.append_assoc], ?_⟩
      simp only [List.length_append]
      push_cast
      omega
  next hgt =>
    obtain rfl : R1.2 = st' := Option.some.inj h
    exact ⟨t1, ht1, by omega⟩

/-- Success counting for the ANY branch: with `val ≥ 1`, exactly `val`
indices are appended. -/
theorem processAny_count {dice_enum : List (Nat × ElementType)} {char_element : ElementType}
    {val : Int} {st st' : MatchState} (hval : 1 ≤ val)
    (h : processAny dice_enum char_element val st = some st') :
    ∃ t, st'.dice_idx = st.dice_idx ++ t ∧ (t.length : Int) = val := by
  unfold processAny at h
  simp only [] at h
  obtain ⟨h0, t1, ht1, hlen1⟩ :=
    passTakeChecked_count (fun die => die != char_element) dice_enum val st hval
  generalize hR1 : passTakeChecked (fun die => die != char_element) dice_enum val st = R1 at *
  split at h
  next hgt =>
    obtain ⟨h0', t2, ht2, hlen2⟩ :=
      passTakeChecked_count (fun die => die == char_element) dice_enum R1.1 R1.2 (by omega)
    generalize hR2 :
      passTakeChecked (fun die => die == char_element) dice_enum R1.1 R1.2 = R2 at *
    split at h
    next hgt2 =>
      obtain ⟨h0'', t3, ht3, hlen3⟩ :=
        passTakeChecked_count (fun die => die == ElementType.OMNI) dice_enum R2.1 R2.2 (by omega)
      generalize hR3 :
        passTakeChecked (fun die => die == ElementType.OMNI) dice_enum R2.1 R2.2 = R3 at *
      split at h
      · exact absurd h (by simp)
      next hgt3 =>
        obtain rfl : R3.2 = st' := Option.some.inj h
        refine ⟨t1 ++ (t2 ++ t3), by rw [ht3, ht2, ht1]; simp [List.append_assoc], ?_⟩
        simp only [List.length_append]
        push_cast
        omega
    next hgt2 =>
      obtain rfl : R2.2 = st' := Option.some.inj h
      refine ⟨t1 ++ t2, by rw [ht2, ht1, List.append_assoc], ?_⟩
      simp only [List.length_append]
      push_cast
      omega
  next hgt =>
    obtain rfl : R1.2 = st' := Option.some.inj h
    exact ⟨t1, ht1, by omega⟩

/-! ## SAME-branch machinery: sort membership, counter correctness, and the
consumption loops' counting -/

theorem mem_insertAsc {x y : ElementType × Int} {l : List (ElementType × Int)} :
    y ∈ insertAsc x l ↔ y = x ∨ y ∈ l := by
  induction l with
  | nil => simp [insertAsc]
  | cons z rest ih =>
    simp only [insertAsc]
    split
    · simp only [List.mem_cons, ih]
      tauto
    · simp only [List.mem_cons]

theorem mem_sortAsc {y : ElementType × Int} {l : List (ElementType × Int)} :
    y ∈ sortAsc l ↔ y ∈ l := by
  induction l with
  | nil => simp [sortAsc]
  | cons x rest ih => simp [sortAsc, mem_insertAsc, ih]

theorem mem_insertDesc {x y : ElementType × Int} {l : List (ElementType × Int)} :
    y ∈ insertDesc x l ↔ y = x ∨ y ∈ l := by
  induction l with
  | nil => simp [insertDesc]
  | cons z rest ih =>
    simp only [insertDesc]
    split
    · simp only [List.mem_cons, ih]
      tauto
    · simp only [List.mem_cons]

theorem mem_sortDesc {y : ElementType × Int} {l : List (ElementType × Int)} :
    y ∈ sortDesc l ↔ y ∈ l := by
  induction l with
  | nil => simp [sortDesc]
  | cons x rest ih => simp [sortDesc, mem_insertDesc, ih]

/-- Every counter item records the exact count of its key among the unused
dice elements. -/
theorem counterItems_snd {dice_enum : List (Nat × ElementType)} {used : List Bool}
    {char_element : ElementType} {kv : ElementType × Int}
    (h : kv ∈ counterItems dice_enum used char_element) :
    kv.2 = ((unusedElems dice_enum used).count kv.1 : Int) := by
  unfold counterItems at h
  simp only [List.mem_map] at h
  obtain ⟨e, _, rfl⟩ := h
  rfl

/-- The counter always contains an `OMNI` item (the code inserts a zero
count when absent). -/
theorem counterItems_omni_mem (dice_enum : List (Nat × ElementType)) (used : List Bool)
    (char_element : ElementType) :
    (ElementType.OMNI, ((unusedElems dice_enum used).count ElementType.OMNI : Int)) ∈
      counterItems dice_enum used char_element := by
  unfold counterItems
  simp only [List.mem_map]
  refine ⟨ElementType.OMNI, ?_, rfl⟩
  by_cases h1 : ElementType.OMNI ∈ firstOccKeys (unusedElems dice_enum used)
  · simp only [if_pos h1]
    split
    · exact h1
    · exact List.mem_append_left _ h1
  · simp only [if_neg h1]
    have h2 : ElementType.OMNI ∈ firstOccKeys (unusedElems dice_enum used) ++ [ElementType.OMNI] :=
      List.mem_append_right _ (by simp)
    split
    · exact h2
    · exact List.mem_append_left _ h2

/-- `findStep1` only returns an eligible element: one that is neither `OMNI`
nor the character's element, present in the scanned counter with count at
least `val`. -/
theorem findStep1_some {char_element : ElementType} {val : Int}
    {l : List (ElementType × Int)} {e : ElementType}
    (h : findStep1 char_element val l = some e) :
    ¬(e = ElementType.OMNI ∨ e = char_element) ∧ ∃ c, (e, c) ∈ l ∧ val ≤ c := by
  induction l with
  | nil => simp [findStep1] at h
  | cons kv rest ih =>
    obtain ⟨element, cnt⟩ := kv
    simp only [findStep1] at h
    split at h
    · obtain ⟨hne, c, hc, hval⟩ := ih h
      exact ⟨hne, c, List.mem_cons_of_mem _ hc, hval⟩
    · split at h
      next hsp hle =>
        obtain rfl : element = e := Option.some.inj h
        exact ⟨hsp, cnt, List.mem_cons_self _ _, hle⟩
      · obtain ⟨hne, c, hc, hval⟩ := ih h
        exact ⟨hne, c, List.mem_cons_of_mem _ hc, hval⟩

/-- When `findStep1` fails, every eligible item of the scanned counter has
count below `val`. -/
theorem findStep1_none {char_element : ElementType} {val : Int}
    {l : List (ElementType × Int)}
    (h : findStep1 char_element val l = none) :
    ∀ kv ∈ l, ¬(kv.1 = ElementType.OMNI ∨ kv.1 = char_element) → kv.2 < val := by
  induction l with
  | nil => simp
  | cons kv0 rest ih =>
    obtain ⟨element, cnt⟩ := kv0
    intro kv hkv hne
    simp only [findStep1] at h
    split at h
    next hsp =>
      rcases List.mem_cons.mp hkv with rfl | hkv
      · exact absurd hsp hne
      · exact ih h kv hkv hne
    next hsp =>
      split at h
      · exact absurd h (by simp)
      next hlt =>
        rcases List.mem_cons.mp hkv with rfl | hkv
        · simpa using hlt
        · exact ih h kv hkv hne

/-- `findStep2` returns the first eligible item of the scanned counter. -/
theorem findStep2_some {char_element : ElementType} {l : List (ElementType × Int)}
    {ec : ElementType × Int} (h : findStep2 char_element l = some ec) :
    ¬(ec.1 = ElementType.OMNI ∨ ec.1 = char_element) ∧ ec ∈ l := by
  induction l with
  | nil => simp [findStep2] at h
  | cons kv0 rest ih =>
    obtain ⟨element, cnt⟩ := kv0
    simp only [findStep2] at h
    split at h
    · obtain ⟨hne, hmem⟩ := ih h
      exact ⟨hne, List.mem_cons_of_mem _ hmem⟩
    next hsp =>
      obtain rfl : (element, cnt) = ec := Option.some.inj h
      exact ⟨hsp, List.mem_cons_self _ _⟩

/-- The number of unused dice of element `e` in an index-paired dice list. -/
def availCnt (e : ElementType) (l : List (Nat × ElementType)) (used : List Bool) : Int :=
  ((l.filter (fun p => !(used.getD p.1 false) && p.2 == e)).length : Int)

/-- Index-paired lists with pairwise-distinct indices. -/
def IdxNodup (l : List (Nat × ElementType)) : Prop :=
  l.Pairwise (fun p q => p.1 ≠ q.1)

theorem availCnt_nonneg (e : ElementType) (l : List (Nat × ElementType)) (used : List Bool) :
    0 ≤ availCnt e l used :=
  Int.natCast_nonneg _

theorem availCnt_nil (e : ElementType) (used : List Bool) : availCnt e [] used = 0 := rfl

theorem availCnt_cons (e : ElementType) (idx : Nat) (die : ElementType)
    (rest : List (Nat × ElementType)) (used : List Bool) :
    availCnt e ((idx, die) :: rest) used =
      (if used.getD idx false = false ∧ die = e then 1 else 0) + availCnt e rest used := by
  unfold availCnt
  rw [List.filter_cons]
  by_cases h : used.getD idx false = false ∧ die = e
  · rw [if_pos (by simpa using h), if_pos h]
    simp only [List.length_cons]
    push_cast
    ring
  · rw [if_neg (by simpa using h), if_neg h]
    simp

theorem availCnt_set (e : ElementType) (rest : List (Nat × ElementType)) (used : List Bool)
    (idx : Nat) (hnot : ∀ p ∈ rest, p.1 ≠ idx) :
    availCnt e rest (used.set idx true) = availCnt e rest used := by
  unfold availCnt
  congr 1
  rw [List.filter_congr]
  intro p hp
  rw [getD_set_ne used ((hnot p hp).symm)]

theorem enumFrom_idxNodup (k : Nat) (l : List ElementType) : IdxNodup (enumFrom k l) := by
  induction l generalizing k with
  | nil => exact List.Pairwise.nil
  | cons d rest ih =>
    refine List.Pairwise.cons ?_ (ih (k + 1))
    intro q hq
    have := (mem_enumFrom hq).1
    simp only []
    omega

theorem enumerate_idxNodup (dice : List ElementType) : IdxNodup (enumerate dice) :=
  enumFrom_idxNodup 0 dice

/-- Strong counting for SAME step 1's consumption loop: if at least `r ≥ 1`
unused dice of `element` are available, the loop appends exactly `r` of them
and finishes with `remaining = 0`. -/
theorem passSame1_count (element : ElementType) (l : List (Nat × ElementType)) :
    ∀ (r : Int) (st : MatchState) (R : Int × MatchState), IdxNodup l → 1 ≤ r →
      r ≤ availCnt element l st.used → passSame1 element l r st = R →
      R.1 = 0 ∧ ∃ t, R.2.dice_idx = st.dice_idx ++ t ∧ (t.length : Int) = r ∧
        ∀ i ∈ t, (i, element) ∈ l := by
  induction l with
  | nil =>
    intro r st R _ hr hav _
    rw [availCnt_nil] at hav
    omega
  | cons p rest ih =>
    intro r st R hnd hr hav hR
    obtain ⟨idx, die⟩ := p
    have hnd' : IdxNodup rest := (List.pairwise_cons.mp hnd).2
    have hhead : ∀ q ∈ rest, q.1 ≠ idx :=
      fun q hq => ((List.pairwise_cons.mp hnd).1 q hq).symm
    rw [availCnt_cons] at hav
    simp only [passSame1] at hR
    split at hR
    next hu =>
      have hne : ¬(st.used.getD idx false = false ∧ die = element) :=
        fun hc => Bool.false_ne_true (hc.1 ▸ hu)
      rw [if_neg hne] at hav
      obtain ⟨hz, t, ht, hlen, hmem⟩ := ih r st R hnd' hr (by omega) hR
      exact ⟨hz, t, ht, hlen, fun i hi => List.mem_cons_of_mem _ (hmem i hi)⟩
    next hu =>
      split at hR
      next he =>
        rw [if_pos ⟨by simpa using hu, he.symm⟩] at hav
        have havset := availCnt_set element rest st.used idx hhead
        split at hR
        next hz =>
          subst hR
          refine ⟨by simpa using hz, [idx], by simp,
            by simp only [List.length_singleton]; omega, ?_⟩
          intro i hi
          obtain rfl : i = idx := by simpa using hi
          exact he ▸ List.mem_cons_self _ _
        next hz =>
          obtain ⟨hz', t, ht, hlen, hmem⟩ := ih (r - 1)
            ⟨st.dice_idx ++ [idx], st.used.set idx true⟩ R hnd' (by omega)
            (by rw [havset]; omega) hR
          refine ⟨hz', idx :: t, by simpa using ht,
            by simp only [List.length_cons]; push_cast; omega, ?_⟩
          intro i hi
          rcases List.mem_cons.mp hi with rfl | hi
          · exact he ▸ List.mem_cons_self _ _
          · exact List.mem_cons_of_mem _ (hmem i hi)
      next he =>
        rw [if_neg (fun hc => he hc.2.symm)] at hav
        obtain ⟨hz, t, ht, hlen, hmem⟩ := ih r st R hnd' hr (by omega) hR
        exact ⟨hz, t, ht, hlen, fun i hi => List.mem_cons_of_mem _ (hmem i hi)⟩

/-- SAME step 2's loop always succeeds when given the exact count of its
element and no more OMNI demand than is available. -/
theorem passSame2_success (element : ElementType) (hned : element ≠ ElementType.OMNI)
    (l : List (Nat × ElementType)) :
    ∀ (ro rm : Int) (st : MatchState) (R : Int × Int × MatchState), IdxNodup l →
      ro = availCnt element l st.used → 0 ≤ rm →
      rm ≤ availCnt ElementType.OMNI l st.used →
      passSame2 element l ro rm st = R → R.1 = 0 ∧ R.2.1 = 0 := by
  induction l with
  | nil =>
    intro ro rm st R _ hro hrm0 hrm hR
    rw [availCnt_nil] at hro hrm
    simp only [passSame2] at hR
    subst hR
    exact ⟨show ro = 0 by omega, show rm = 0 by omega⟩
  | cons p rest ih =>
    intro ro rm st R hnd hro hrm0 hrm hR
    obtain ⟨idx, die⟩ := p
    have hnd' : IdxNodup rest := (List.pairwise_cons.mp hnd).2
    have hhead : ∀ q ∈ rest, q.1 ≠ idx :=
      fun q hq => ((List.pairwise_cons.mp hnd).1 q hq).symm
    rw [availCnt_cons] at hro hrm
    simp only [passSame2] at hR
    split at hR
    next hu =>
      have hne1 : ¬(st.used.getD idx false = false ∧ die = element) :=
        fun hc => Bool.false_ne_true (hc.1 ▸ hu)
      have hne2 : ¬(st.used.getD idx false = false ∧ die = ElementType.OMNI) :=
        fun hc => Bool.false_ne_true (hc.1 ▸ hu)
      rw [if_neg hne1] at hro
      rw [if_neg hne2] at hrm
      exact ih ro rm st R hnd' (by omega) hrm0 (by omega) hR
    next hu =>
      have hu' : st.used.getD idx false = false := by simpa using hu
      split at hR
      next he =>
        rw [if_pos ⟨hu', he.symm⟩] at hro
        rw [if_neg (fun hc => hned (he.trans hc.2))] at hrm
        have hset1 := availCnt_set element rest st.used idx hhead
        have hset2 := availCnt_set ElementType.OMNI rest st.used idx hhead
        exact ih (ro - 1) rm _ R hnd' (by rw [hset1]; omega) hrm0 (by rw [hset2]; omega) hR
      next he =>
        rw [if_neg (fun hc => he hc.2.symm)] at hro
        split at hR
        next ho =>
          rw [if_pos ⟨hu', ho.2⟩] at hrm
          have hset1 := availCnt_set element rest st.used idx hhead
          have hset2 := availCnt_set ElementType.OMNI rest st.used idx hhead
          exact ih ro (rm - 1) _ R hnd' (by rw [hset1]; omega) (by omega)
            (by rw [hset2]; omega) hR
        next ho =>
          have hrm' : rm ≤ availCnt ElementType.OMNI rest st.used := by
            by_cases hOm : die = ElementType.OMNI
            · have : ¬rm > 0 := fun hgt => ho ⟨hgt, hOm⟩
              have := availCnt_nonneg ElementType.OMNI rest st.used
              omega
            · rw [if_neg (fun hc => hOm hc.2)] at hrm
              omega
          exact ih ro rm st R hnd' (by omega) hrm0 hrm' hR

/-- Counting for SAME step 2's loop on success: if both counters end at
zero, exactly `other_remaining + omni_remaining` indices were appended. -/
theorem passSame2_success_count (element : ElementType) (l : List (Nat × ElementType)) :
    ∀ (ro rm : Int) (st : MatchState) (R : Int × Int × MatchState),
      passSame2 element l ro rm st = R → R.1 = 0 → R.2.1 = 0 →
      ∃ t, R.2.2.dice_idx = st.dice_idx ++ t ∧ (t.length : Int) = ro + rm := by
  induction l with
  | nil =>
    intro ro rm st R hR h1 h2
    simp only [passSame2] at hR
    subst hR
    have h1' : ro = 0 := h1
    have h2' : rm = 0 := h2
    exact ⟨[], by simp, by simp only [List.length_nil]; omega⟩
  | cons p rest ih =>
    intro ro rm st R hR h1 h2
    obtain ⟨idx, die⟩ := p
    simp only [passSame2] at hR
    split at hR
    · exact ih ro rm st R hR h1 h2
    · split at hR
      · obtain ⟨t, ht, hlen⟩ := ih (ro - 1) rm _ R hR h1 h2
        exact ⟨idx :: t, by simpa using ht,
          by simp only [List.length_cons]; push_cast; omega⟩
      · split at hR
        · obtain ⟨t, ht, hlen⟩ := ih ro (rm - 1) _ R hR h1 h2
          exact ⟨idx :: t, by simpa using ht,
            by simp only [List.length_cons]; push_cast; omega⟩
        · exact ih ro rm st R hR h1 h2

/-- Counting for SAME step 3's loop: if it breaks satisfied, exactly
`char_elem_remaining + omni_remaining` indices were appended. -/
theorem passSame3_success_count (ce : ElementType) (l : List (Nat × ElementType)) :
    ∀ (rc rm : Int) (st : MatchState) (R : Int × Int × MatchState × Bool),
      passSame3 ce l rc rm st = R → R.2.2.2 = true →
      ∃ t, R.2.2.1.dice_idx = st.dice_idx ++ t ∧ (t.length : Int) = rc + rm := by
  induction l with
  | nil =>
    intro rc rm st R hR hsat
    simp only [passSame3] at hR
    subst hR
    simp at hsat
  | cons p rest ih =>
    intro rc rm st R hR hsat
    obtain ⟨idx, die⟩ := p
    simp only [passSame3] at hR
    split at hR
    · exact ih rc rm st R hR hsat
    · by_cases hc : ce = die
      · rw [if_pos hc] at hR
        split at hR
        next hz =>
          subst hR
          have hz1 : rc - 1 = 0 := hz.1
          have hz2 : rm = 0 := hz.2
          exact ⟨[idx], by simp, by simp only [List.length_singleton]; omega⟩
        next hz =>
          obtain ⟨t, ht, hlen⟩ := ih (rc - 1) rm _ R hR hsat
          exact ⟨idx :: t, by simpa using ht,
            by simp only [List.length_cons]; push_cast; omega⟩
      · rw [if_neg hc] at hR
        by_cases hc2 : rm > 0 ∧ die = ElementType.OMNI
        · rw [if_pos hc2] at hR
          split at hR
          next hz =>
            subst hR
            have hz1 : rc = 0 := hz.1
            have hz2 : rm - 1 = 0 := hz.2
            exact ⟨[idx], by simp, by simp only [List.length_singleton]; omega⟩
          next hz =>
            obtain ⟨t, ht, hlen⟩ := ih rc (rm - 1) _ R hR hsat
            exact ⟨idx :: t, by simpa using ht,
              by simp only [List.length_cons]; push_cast; omega⟩
        · rw [if_neg hc2] at hR
          split at hR
          next hz =>
            subst hR
            have hz1 : rc = 0 := hz.1
            have hz2 : rm = 0 := hz.2
            exact ⟨[], by simp, by simp only [List.length_nil]; omega⟩
          next hz =>
            exact ih rc rm st R hR hsat

/-- The count kept for an element by the SAME branch's counter equals the
number of unused dice of that element. -/
theorem unusedElems_count (l : List (Nat × ElementType)) (used : List Bool) (e : ElementType) :
    (unusedElems l used).count e =
      (l.filter (fun p => !(used.getD p.1 false) && p.2 == e)).length := by
  induction l with
  | nil => rfl
  | cons p rest ih =>
    obtain ⟨idx, die⟩ := p
    unfold unusedElems at ih ⊢
    rw [List.filter_cons, List.filter_cons]
    by_cases h1 : used.getD idx false
    · have h1' : used[idx]?.getD false = true := by simpa using h1
      simpa [h1'] using ih
    · have h1' : used[idx]?.getD false = false := by simpa using h1
      by_cases h2 : die = e
      · simpa [h1', h2, List.count_cons] using ih
      · simpa [h1', h2, List.count_cons] using ih

theorem unusedElems_count_int (l : List (Nat × ElementType)) (used : List Bool)
    (e : ElementType) : ((unusedElems l used).count e : Int) = availCnt e l used := by
  rw [unusedElems_count]
  rfl

/-- The `omni_count` the SAME branch reads off the sorted counter is the
exact number of unused OMNI dice. -/
theorem omni_count_eq (dice_enum : List (Nat × ElementType)) (used : List Bool)
    (char_element : ElementType) :
    (lookupCost (sortAsc (counterItems dice_enum used char_element)) ElementType.OMNI).getD 0 =
      availCnt ElementType.OMNI dice_enum used := by
  unfold lookupCost
  cases hf : (sortAsc (counterItems dice_enum used char_element)).find?
      (fun kv => kv.1 = ElementType.OMNI) with
  | none =>
    exfalso
    have hmem : (ElementType.OMNI,
        ((unusedElems dice_enum used).count ElementType.OMNI : Int)) ∈
        sortAsc (counterItems dice_enum used char_element) :=
      mem_sortAsc.mpr (counterItems_omni_mem dice_enum used char_element)
    have := List.find?_eq_none.mp hf _ hmem
    simp at this
  | some kv =>
    have hpred := List.find?_some hf
    have hkv1 : kv.1 = ElementType.OMNI := by simpa using hpred
    have hmem : kv ∈ counterItems dice_enum used char_element :=
      mem_sortAsc.mp (List.mem_of_find?_eq_some hf)
    have hsnd : kv.2 = ((unusedElems dice_enum used).count kv.1 : Int) :=
      counterItems_snd hmem
    simp only [Option.map_some', Option.getD_some]
    rw [hsnd, hkv1]
    exact unusedElems_count_int dice_enum used ElementType.OMNI

/-- Success counting for SAME step 3 (the character-element fallback):
regardless of the counter values, a satisfied break appends exactly `val`
indices. -/
theorem processSameStep3_count {dice_enum : List (Nat × ElementType)}
    {char_element : ElementType} {val omni_count : Int} {items : List (ElementType × Int)}
    {st st' : MatchState}
    (h : processSameStep3 dice_enum char_element val items omni_count st = some st') :
    ∃ t, st'.dice_idx = st.dice_idx ++ t ∧ (t.length : Int) = val := by
  unfold processSameStep3 at h
  simp only [] at h
  split at h
  next hge =>
    split at h
    next hsat =>
      obtain rfl : _ = st' := Option.some.inj h
      obtain ⟨t, ht, hlen⟩ := passSame3_success_count char_element dice_enum _ _ st _ rfl hsat
      exact ⟨t, ht, by omega⟩
    next hsat => exact absurd h (by simp)
  next hge => exact absurd h (by simp)

/-- Success counting for the whole SAME branch: with `val ≥ 1`, success
appends exactly `val` indices. -/
theorem processSame_count {dice_enum : List (Nat × ElementType)} {char_element : ElementType}
    {val : Int} {st st' : MatchState} (hval : 1 ≤ val) (hnd : IdxNodup dice_enum)
    (h : processSame dice_enum char_element val st = some st') :
    ∃ t, st'.dice_idx = st.dice_idx ++ t ∧ (t.length : Int) = val := by
  unfold processSame at h
  simp only [] at h
  split at h
  next element hfs =>
    obtain rfl : _ = st' := Option.some.inj h
    obtain ⟨hne, c, hc, hcval⟩ := findStep1_some hfs
    have hsnd : c = ((unusedElems dice_enum st.used).count element : Int) :=
      counterItems_snd (mem_sortAsc.mp hc)
    have havail : val ≤ availCnt element dice_enum st.used := by
      rw [hsnd, unusedElems_count_int] at hcval
      exact hcval
    obtain ⟨hz, t, ht, hlen, hmem⟩ :=
      passSame1_count element dice_enum val st _ hnd hval havail rfl
    exact ⟨t, ht, hlen⟩
  next hfs =>
    split at h
    next element cnt hfs2 =>
      obtain ⟨hne2, hmem2⟩ := findStep2_some hfs2
      have hcnt : cnt = availCnt element dice_enum st.used := by
        have hsnd2 : cnt = ((unusedElems dice_enum st.used).count element : Int) :=
          counterItems_snd (mem_sortDesc.mp hmem2)
        rw [hsnd2, unusedElems_count_int]
      have homni := omni_count_eq dice_enum st.used char_element
      have hcntlt : cnt < val := by
        have := findStep1_none hfs (element, cnt)
          (mem_sortAsc.mpr (mem_sortDesc.mp hmem2)) hne2
        simpa using this
      have hneOmni : element ≠ ElementType.OMNI := fun hEq => hne2 (Or.inl hEq)
      split at h
      next hge =>
        rw [homni] at hge
        split at h
        next hsucc =>
          obtain rfl : _ = st' := Option.some.inj h
          obtain ⟨t, ht, hlen⟩ := passSame2_success_count element dice_enum cnt (val - cnt)
            st _ rfl hsucc.1 hsucc.2
          exact ⟨t, ht, by omega⟩
        next hsucc =>
          exfalso
          exact hsucc (passSame2_success element hneOmni dice_enum cnt (val - cnt) st _
            hnd hcnt (by omega) (by omega) rfl)
      next hge =>
        exact processSameStep3_count h
    next hfs2 =>
      exact processSameStep3_count h

/-! ## Putting the counts together: claim C1 -/

/-- The cost-specification key domain fixed by the spec's data model: a major
element, `ANY`, `SAME`, or `POWER`. -/
def validCostKey (k : ElementType) : Prop :=
  (1 ≤ k.value ∧ k.value ≤ 7) ∨ k = ElementType.ANY ∨ k = ElementType.SAME ∨
    k = ElementType.POWER

instance : DecidablePred validCostKey := fun k => by
  unfold validCostKey
  infer_instance

/-- The total dice requirement of a cost specification: the sum of the
required counts over its non-`POWER` keys. -/
def costDiceSum (cost : List (ElementType × Int)) : Int :=
  ((cost.filter (fun kv => kv.1 ≠ ElementType.POWER)).map (fun kv => kv.2)).sum

theorem costDiceSum_cons (key : ElementType) (val : Int) (rest : List (ElementType × Int)) :
    costDiceSum ((key, val) :: rest) =
      (if key = ElementType.POWER then 0 else val) + costDiceSum rest := by
  unfold costDiceSum
  rw [List.filter_cons]
  by_cases h : key = ElementType.POWER
  · simp [h]
  · simp [h]

/-- Success counting for one key: a handled key appends exactly `val`
indices, a `POWER` key appends none. -/
theorem processKey_count {dice_enum : List (Nat × ElementType)} {char_element key : ElementType}
    {val : Int} {st st' : MatchState} (hkey : validCostKey key) (hval : 1 ≤ val)
    (hnd : IdxNodup dice_enum)
    (h : processKey dice_enum char_element key val st = some st') :
    ∃ t, st'.dice_idx = st.dice_idx ++ t ∧
      (t.length : Int) = (if key = ElementType.POWER then 0 else val) := by
  unfold processKey at h
  split at h
  next hmaj =>
    have hne : key ≠ ElementType.POWER := by
      intro hp
      subst hp
      simp [ElementType.value] at hmaj
    rw [if_neg hne]
    exact processMajor_count hval h
  next hmaj =>
    split at h
    next hany =>
      have hne : key ≠ ElementType.POWER := by
        subst hany
        decide
      rw [if_neg hne]
      exact processAny_count hval h
    next hany =>
      split at h
      next hsame =>
        have hne : key ≠ ElementType.POWER := by
          subst hsame
          decide
        rw [if_neg hne]
        exact processSame_count hval hnd h
      next hsame =>
        have hp : key = ElementType.POWER := by
          rcases hkey with hk | hk | hk | hk
          · exact absurd hk hmaj
          · exact absurd hk hany
          · exact absurd hk hsame
          · exact hk
        obtain rfl : st = st' := Option.some.inj h
        exact ⟨[], by simp, by rw [if_pos hp]; simp⟩

/-- Success counting over the whole cost mapping: the selection grows by
exactly the non-`POWER` requirement sum. -/
theorem get_dice_idx_greedy_go_count {dice_enum : List (Nat × ElementType)}
    {char_element : ElementType} (cost : List (ElementType × Int)) (st : MatchState)
    {st' : MatchState} (hvalid : ∀ kv ∈ cost, validCostKey kv.1 ∧ 1 ≤ kv.2)
    (hnd : IdxNodup dice_enum)
    (h : get_dice_idx_greedy_go dice_enum char_element cost st = some st') :
    ∃ t, st'.dice_idx = st.dice_idx ++ t ∧ (t.length : Int) = costDiceSum cost := by
  induction cost generalizing st with
  | nil =>
    obtain rfl : st = st' := Option.some.inj h
    exact ⟨[], by simp, by simp [costDiceSum]⟩
  | cons kv rest ih =>
    obtain ⟨key, val⟩ := kv
    unfold get_dice_idx_greedy_go at h
    cases hpk : processKey dice_enum char_element key val st with
    | none => rw [hpk] at h; exact absurd h (by simp)
    | some st1 =>
      rw [hpk] at h
      have hkv := hvalid (key, val) (List.mem_cons_self _ _)
      obtain ⟨t1, ht1, hlen1⟩ := processKey_count hkv.1 hkv.2 hnd hpk
      obtain ⟨t2, ht2, hlen2⟩ := ih st1
        (fun kv hkv => hvalid kv (List.mem_cons_of_mem _ hkv)) h
      refine ⟨t1 ++ t2, by rw [ht2, ht1, List.append_assoc], ?_⟩
      rw [costDiceSum_cons]
      simp only [List.length_append]
      push_cast
      by_cases hp : key = ElementType.POWER
      · rw [if_pos hp] at hlen1 ⊢
        omega
      · rw [if_neg hp] at hlen1 ⊢
        omega

/-- C1 counterexample: with dice `[PYRO]`, cost `{PYRO: 0}` and character
element `NONE`, the matcher completes without failing but returns one index
while the non-`POWER` requirement sum is `0` — the claimed size equality is
false at this input. -/
theorem matcher_size_claim_counterexample :
    get_dice_idx_greedy [ElementType.PYRO] [(ElementType.PYRO, 0)] ElementType.NONE =
        some [0] ∧
      ¬((([0] : List Nat).length : Int) = costDiceSum [(ElementType.PYRO, 0)]) := by
  constructor
  · rfl
  · decide

/-- C1 (amended): for every dice sequence, cost specification with valid
keys whose required counts are all at least 1, and character element, if
`get_dice_idx_greedy` completes all keys without failing then the number of
returned indices equals the sum of the required counts of all non-`POWER`
keys. -/
theorem matcher_success_size_eq_cost_sum (dice : List ElementType)
    (cost : List (ElementType × Int)) (char_element : ElementType) (sel : List Nat)
    (hvalid : ∀ kv ∈ cost, validCostKey kv.1 ∧ 1 ≤ kv.2)
    (h : get_dice_idx_greedy dice cost char_element = some sel) :
    (sel.length : Int) = costDiceSum cost := by
  unfold get_dice_idx_greedy at h
  cases hgo : get_dice_idx_greedy_go (enumerate dice) char_element cost
      ⟨[], dice.map (fun _ => false)⟩ with
  | none => rw [hgo] at h; exact absurd h (by simp)
  | some st' =>
    rw [hgo] at h
    obtain rfl : st'.dice_idx = sel := by simpa using h
    obtain ⟨t, ht, hlen⟩ := get_dice_idx_greedy_go_count cost _ hvalid
      (enumerate_idxNodup dice) hgo
    simp only [List.nil_append] at ht
    rw [ht]
    exact hlen

/-- Witness for the amended C1 at dice `[PYRO, OMNI]`, cost `{PYRO: 2}`:
the matcher succeeds with two indices, matching the requirement sum. -/
theorem matcher_success_size_witness :
    (∀ kv ∈ [(ElementType.PYRO, (2 : Int))], validCostKey kv.1 ∧ 1 ≤ kv.2) ∧
      ((([0, 1] : List Nat).length : Int) = costDiceSum [(ElementType.PYRO, 2)]) :=
  ⟨by decide,
    matcher_success_size_eq_cost_sum [ElementType.PYRO, ElementType.OMNI]
      [(ElementType.PYRO, 2)] ElementType.NONE [0, 1] (by decide) (by decide)⟩

/-! ## Exact characterization of a checked pass: claim C3 -/

/-- The indices a checked pass can take, in scan order: unused, not already
selected, and matching the predicate. -/
def availIdx (pred : ElementType → Bool) (st : MatchState)
    (l : List (Nat × ElementType)) : List Nat :=
  (l.filter (fun p => !(st.used.getD p.1 false) && !(st.dice_idx.contains p.1) &&
    pred p.2)).map (fun p => p.1)

/-- Take a list of indices one after the other. -/
def takeAll (st : MatchState) (t : List Nat) : MatchState :=
  t.foldl (fun s i => ⟨s.dice_idx ++ [i], s.used.set i true⟩) st

theorem takeAll_cons (st : MatchState) (i : Nat) (t : List Nat) :
    takeAll st (i :: t) = takeAll ⟨st.dice_idx ++ [i], st.used.set i true⟩ t := rfl

theorem takeAll_dice_idx (t : List Nat) : ∀ st : MatchState,
    (takeAll st t).dice_idx = st.dice_idx ++ t := by
  induction t with
  | nil => intro st; simp [takeAll]
  | cons i t ih =>
    intro st
    rw [takeAll_cons, ih]
    simp

theorem takeAll_used_length (t : List Nat) : ∀ st : MatchState,
    (takeAll st t).used.length = st.used.length := by
  induction t with
  | nil => intro st; rfl
  | cons i t ih =>
    intro st
    rw [takeAll_cons, ih]
    simp

theorem takeAll_used_getD (t : List Nat) : ∀ (st : MatchState),
    (∀ i ∈ t, i < st.used.length) → ∀ j,
    (takeAll st t).used.getD j false = (st.used.getD j false || t.contains j) := by
  induction t with
  | nil => intro st _ j; simp [takeAll]
  | cons i t ih =>
    intro st hb j
    have hilt : i < st.used.length := hb i (List.mem_cons_self _ _)
    rw [takeAll_cons, ih _ (fun x hx => by
      simpa using hb x (List.mem_cons_of_mem _ hx))]
    by_cases hij : i = j
    · subst hij
      rw [getD_set_self st.used i hilt true false]
      simp
    · rw [getD_set_ne st.used hij true false]
      simp only [List.contains_cons]
      have : (j == i) = false := by simpa using Ne.symm hij
      rw [this]
      simp [Bool.or_assoc, Bool.or_comm]

/-- An empty availability list means the pass changes nothing. -/
theorem passTakeChecked_of_availIdx_nil (pred : ElementType → Bool)
    (l : List (Nat × ElementType)) : ∀ (r : Int) (st : MatchState),
    availIdx pred st l = [] → passTakeChecked pred l r st = (r, st) := by
  induction l with
  | nil => intro r st _; rfl
  | cons p rest ih =>
    intro r st hav
    obtain ⟨idx, die⟩ := p
    unfold availIdx at hav
    rw [List.filter_cons] at hav
    simp only [] at hav
    simp only [passTakeChecked]
    split
    next hu =>
      rw [if_neg (by simp [hu, -List.getD_eq_getElem?_getD])] at hav
      exact ih r st hav
    next hu =>
      have hu' : st.used.getD idx false = false := by simpa using hu
      split
      next hc =>
        exfalso
        have : (!st.used.getD idx false && !st.dice_idx.contains idx && pred die) = true := by
          simp [hu', hc.2, hc.1, -List.getD_eq_getElem?_getD]
        rw [if_pos this] at hav
        simp [availIdx] at hav
      next hc =>
        have hcond : (!st.used.getD idx false && !st.dice_idx.contains idx && pred die)
            = false := by
          by_cases hmem : idx ∈ st.dice_idx
          · simp [hmem]
          · have hp : pred die = false := by
              cases hpd : pred die with
              | false => rfl
              | true => exact absurd ⟨hmem, hpd⟩ hc
            simp [hp]
        rw [if_neg (by rw [hcond]; decide)] at hav
        exact ih r st hav

/-- Full characterization of a checked pass: starting with `remaining = r ≥
1`, the pass takes exactly the first `r` entries of its availability list
(all of them when fewer than `r` exist) in scan order. -/
theorem passTakeChecked_spec (pred : ElementType → Bool) (l : List (Nat × ElementType)) :
    ∀ (r : Int) (st : MatchState), IdxNodup l → (∀ p ∈ l, p.1 < st.used.length) → 1 ≤ r →
      passTakeChecked pred l r st =
        (r - (((availIdx pred st l).take r.toNat).length : Int),
          takeAll st ((availIdx pred st l).take r.toNat)) := by
  induction l with
  | nil =>
    intro r st _ _ hr
    simp [passTakeChecked, availIdx, takeAll]
  | cons p rest ih =>
    intro r st hnd hb hr
    obtain ⟨idx, die⟩ := p
    have hnd' : IdxNodup rest := (List.pairwise_cons.mp hnd).2
    have hhead : ∀ q ∈ rest, q.1 ≠ idx :=
      fun q hq => ((List.pairwise_cons.mp hnd).1 q hq).symm
    have hb' : ∀ p ∈ rest, p.1 < st.used.length :=
      fun p hp => hb p (List.mem_cons_of_mem _ hp)
    have hidxlt : idx < st.used.length := hb (idx, die) (List.mem_cons_self _ _)
    have hfc : availIdx pred st ((idx, die) :: rest) =
        (if !st.used.getD idx false && !st.dice_idx.contains idx && pred die then
          idx :: availIdx pred st rest else availIdx pred st rest) := by
      unfold availIdx
      rw [List.filter_cons]
      simp only []
      split
      · simp
      · rfl
    simp only [passTakeChecked]
    split
    next hu =>
      have hcond0 : (!st.used.getD idx false && !st.dice_idx.contains idx && pred die)
          = false := by
        simp [hu, -List.getD_eq_getElem?_getD]
      rw [hfc, if_neg (by rw [hcond0]; decide)]
      exact ih r st hnd' hb' hr
    next hu =>
      have hu' : st.used.getD idx false = false := by simpa using hu
      split
      next hc =>
        have hcond : (!st.used.getD idx false && !st.dice_idx.contains idx && pred die)
            = true := by
          simp [hu', hc.2, hc.1, -List.getD_eq_getElem?_getD]
        rw [hfc, if_pos hcond]
        have hav' : availIdx pred ⟨st.dice_idx ++ [idx], st.used.set idx true⟩ rest =
            availIdx pred st rest := by
          unfold availIdx
          congr 1
          apply List.filter_congr
          intro q hq
          have hne : q.1 ≠ idx := hhead q hq
          rw [getD_set_ne st.used (Ne.symm hne) true false]
          have : (st.dice_idx ++ [idx]).contains q.1 = st.dice_idx.contains q.1 := by
            by_cases hq1 : q.1 ∈ st.dice_idx
            · have h1 : q.1 ∈ st.dice_idx ++ [idx] := List.mem_append_left _ hq1
              simp [hq1, h1]
            · have h1 : q.1 ∉ st.dice_idx ++ [idx] := by
                intro hmem
                rcases List.mem_append.mp hmem with h | h
                · exact hq1 h
                · exact hne (by simpa using h)
              simp [hq1, h1]
          rw [this]
        split
        next hz =>
          have hr1 : r.toNat = 1 := by omega
          rw [hr1, List.take_succ_cons, List.take_zero, takeAll_cons]
          simp [takeAll]
        next hz =>
          rw [ih (r - 1) ⟨st.dice_idx ++ [idx], st.used.set idx true⟩ hnd'
            (fun p hp => by simpa using hb' p hp) (by omega), hav']
          have hr1 : r.toNat = (r - 1).toNat + 1 := by omega
          rw [hr1, List.take_succ_cons, takeAll_cons]
          refine Prod.ext ?_ rfl
          simp only [List.length_cons]
          push_cast
          omega
      next hc =>
        have hcond : (!st.used.getD idx false && !st.dice_idx.contains idx && pred die)
            = false := by
          by_cases hmem : idx ∈ st.dice_idx
          · simp [hmem]
          · have hp : pred die = false := by
              cases hpd : pred die with
              | false => rfl
              | true => exact absurd ⟨hmem, hpd⟩ hc
            simp [hp]
        rw [hfc, if_neg (by rw [hcond]; decide)]
        exact ih r st hnd' hb' hr

/-- The indices of the dice whose element satisfies `pred`, in dice order. -/
def idxWhere (pred : ElementType → Bool) (dice : List ElementType) : List Nat :=
  ((enumerate dice).filter (fun p => pred p.2)).map (fun p => p.1)

theorem enumFrom_length (k : Nat) (l : List ElementType) :
    (enumFrom k l).length = l.length := by
  induction l generalizing k with
  | nil => rfl
  | cons d rest ih => simp [enumFrom, ih]

theorem getD_map_false (dice : List ElementType) (j : Nat) :
    (dice.map (fun _ => false)).getD j false = false := by
  induction dice generalizing j with
  | nil => rfl
  | cons d rest ih =>
    cases j with
    | zero => rfl
    | succ j => simp [List.getD_cons_succ, ih j]

/-- On the fresh state, the availability list of a pass is just the matching
dice indices. -/
theorem availIdx_fresh (pred : ElementType → Bool) (dice : List ElementType) :
    availIdx pred ⟨[], dice.map (fun _ => false)⟩ (enumerate dice) = idxWhere pred dice := by
  unfold availIdx idxWhere
  congr 1
  apply List.filter_congr
  intro p _
  simp [getD_map_false]

/-- After taking the indices `t` from the fresh state, the availability list
drops exactly the entries whose index lies in `t`. -/
theorem availIdx_takeAll (pred : ElementType → Bool) (dice : List ElementType) (t : List Nat)
    (hb : ∀ i ∈ t, i < dice.length) :
    availIdx pred (takeAll ⟨[], dice.map (fun _ => false)⟩ t) (enumerate dice) =
      ((enumerate dice).filter (fun p => !(t.contains p.1) && pred p.2)).map (fun p => p.1) := by
  unfold availIdx
  congr 1
  apply List.filter_congr
  intro p _
  have hb' : ∀ i ∈ t, i < (⟨[], dice.map (fun _ => false)⟩ : MatchState).used.length := by
    intro i hi
    simpa using hb i hi
  rw [takeAll_used_getD t _ hb', takeAll_dice_idx]
  simp [getD_map_false]

theorem mem_idxWhere {pred : ElementType → Bool} {dice : List ElementType} {i : Nat} :
    i ∈ idxWhere pred dice ↔ ∃ d, (i, d) ∈ enumerate dice ∧ pred d = true := by
  unfold idxWhere
  simp only [List.mem_map, List.mem_filter]
  constructor
  · rintro ⟨p, ⟨hmem, hpred⟩, rfl⟩
    exact ⟨p.2, hmem, hpred⟩
  · rintro ⟨d, hmem, hpred⟩
    exact ⟨(i, d), ⟨hmem, hpred⟩, rfl⟩

/-- In an index-pairwise-distinct list, the index determines the entry. -/
theorem idxNodup_fst_unique {l : List (Nat × ElementType)} (h : IdxNodup l)
    {p q : Nat × ElementType} (hp : p ∈ l) (hq : q ∈ l) (hfst : p.1 = q.1) : p = q := by
  induction l with
  | nil => cases hp
  | cons x rest ih =>
    obtain ⟨hx, h'⟩ := List.pairwise_cons.mp h
    rcases List.mem_cons.mp hp with rfl | hp' <;> rcases List.mem_cons.mp hq with rfl | hq'
    · rfl
    · exact absurd hfst (hx q hq')
    · exact absurd hfst.symm (hx p hp')
    · exact ih h' hp' hq'

/-- The matching and non-matching index lists partition the dice. -/
theorem idxWhere_partition_length (pred : ElementType → Bool) (dice : List ElementType) :
    (idxWhere pred dice).length + (idxWhere (fun d => !pred d) dice).length = dice.length := by
  unfold idxWhere
  simp only [List.length_map]
  have := (List.length_eq_length_filter_add (l := enumerate dice) (fun p => pred p.2)).symm
  calc ((enumerate dice).filter (fun p => pred p.2)).length +
        ((enumerate dice).filter (fun p => !pred p.2)).length
      = (enumerate dice).length := this
    _ = dice.length := enumFrom_length 0 dice

theorem takeAll_append (st : MatchState) (t1 t2 : List Nat) :
    takeAll (takeAll st t1) t2 = takeAll st (t1 ++ t2) := by
  unfold takeAll
  rw [List.foldl_append]

/-- Bound for the matching index list. -/
theorem idxWhere_lt (pred : ElementType → Bool) (dice : List ElementType) :
    ∀ i ∈ idxWhere pred dice, i < dice.length := by
  intro i hi
  obtain ⟨d, hmem, _⟩ := mem_idxWhere.mp hi
  exact enumerate_idxLt dice (i, d) hmem

/-- An index of an `e`-die never lies in the non-`e` index list. -/
theorem not_mem_idxWhere_ne {dice : List ElementType} {e d : ElementType} {i : Nat}
    (hmem : (i, d) ∈ enumerate dice) (hd : (d == e) = true) :
    i ∉ idxWhere (fun x => x != e) dice := by
  intro hi
  obtain ⟨d', hmem', hne⟩ := mem_idxWhere.mp hi
  have hpq := idxNodup_fst_unique (enumerate_idxNodup dice) hmem hmem' rfl
  obtain rfl : d = d' := congrArg Prod.snd hpq
  have hde : d = e := by simpa using hd
  have hdne : d ≠ e := by simpa using hne
  exact hdne hde

/-- C3 (amended): for an `ANY` key requiring `n ≥ 1` dice, the matcher first
takes dice whose element differs from the character's — Universal (OMNI)
dice included among these, not reserved for a later pass — in dice order,
then falls back to dice of the character's element; the key fails exactly
when the whole pool holds fewer than `n` dice.  (The original claim's
ordering, with Universal dice selected only after both other classes are
exhausted, is refuted by `matcher_any_key_universal_counterexample`.) -/
theorem matcher_any_key_order (dice : List ElementType) (e : ElementType) (n : Int)
    (hn : 1 ≤ n) :
    get_dice_idx_greedy dice [(ElementType.ANY, n)] e =
      (if n ≤ (dice.length : Int) then
        some ((idxWhere (fun d => d != e) dice ++ idxWhere (fun d => d == e) dice).take n.toNat)
      else none) := by
  have hnn : (n.toNat : Int) = n := Int.toNat_of_nonneg (by omega)
  have hkey : ∀ st, processKey (enumerate dice) e ElementType.ANY n st =
      processAny (enumerate dice) e n st := by
    intro st
    unfold processKey
    rw [if_neg (by decide), if_pos rfl]
  have hgo : get_dice_idx_greedy dice [(ElementType.ANY, n)] e =
      (processAny (enumerate dice) e n ⟨[], dice.map (fun _ => false)⟩).map
        (fun st => st.dice_idx) := by
    unfold get_dice_idx_greedy get_dice_idx_greedy_go
    rw [hkey]
    cases processAny (enumerate dice) e n ⟨[], dice.map (fun _ => false)⟩ with
    | none => rfl
    | some st' => rfl
  have hnd := enumerate_idxNodup dice
  have hb0 : ∀ p ∈ enumerate dice,
      p.1 < (⟨[], dice.map (fun _ => false)⟩ : MatchState).used.length := by
    intro p hp
    simpa using enumerate_idxLt dice p hp
  have hAB : (idxWhere (fun d => d != e) dice).length +
      (idxWhere (fun d => d == e) dice).length = dice.length := by
    have hpart := idxWhere_partition_length (fun d => d != e) dice
    have hfun : (fun d : ElementType => !(d != e)) = (fun d => d == e) := by
      funext d
      simp [bne]
    rw [hfun] at hpart
    exact hpart
  have hbA : ∀ i ∈ idxWhere (fun d => d != e) dice, i < dice.length :=
    idxWhere_lt _ dice
  rw [hgo]
  unfold processAny
  simp only []
  rw [passTakeChecked_spec (fun die => die != e) (enumerate dice) n _ hnd hb0 hn,
    availIdx_fresh]
  simp only []
  by_cases hA1 : n ≤ ((idxWhere (fun d => d != e) dice).length : Int)
  · have htk : ((idxWhere (fun d => d != e) dice).take n.toNat).length = n.toNat := by
      rw [List.length_take]
      omega
    have hcond : ¬(n - (((idxWhere (fun d => d != e) dice).take n.toNat).length : Int) > 0) := by
      rw [htk]
      omega
    rw [if_neg hcond, if_neg hcond]
    simp only []
    rw [if_neg hcond]
    rw [if_pos (by omega : n ≤ (dice.length : Int))]
    have happ : (idxWhere (fun d => d != e) dice ++ idxWhere (fun d => d == e) dice).take n.toNat
        = (idxWhere (fun d => d != e) dice).take n.toNat := by
      rw [List.take_append_eq_append_take]
      have hz : n.toNat - (idxWhere (fun d => d != e) dice).length = 0 := by omega
      rw [hz]
      simp
    rw [happ]
    simp [takeAll_dice_idx]
  · have htkA : (idxWhere (fun d => d != e) dice).take n.toNat
        = idxWhere (fun d => d != e) dice := by
      apply List.take_of_length_le
      omega
    rw [htkA]
    have hcond1 : n - (((idxWhere (fun d => d != e) dice)).length : Int) > 0 := by omega
    rw [if_pos hcond1]
    have hfilters : (enumerate dice).filter (fun p =>
        !((idxWhere (fun d => d != e) dice).contains p.1) && (p.2 == e)) =
        (enumerate dice).filter (fun p => p.2 == e) := by
      apply List.filter_congr
      intro p hp
      by_cases hpe : (p.2 == e) = true
      · have hnotA : (idxWhere (fun d => d != e) dice).contains p.1 = false := by
          have := @not_mem_idxWhere_ne dice e p.2 p.1
            (by simpa using hp) hpe
          simpa using this
        rw [hnotA]
        rfl
      · have hpe' : (p.2 == e) = false := by simpa using hpe
        rw [hpe']
        simp
    have hav2 : availIdx (fun die => die == e)
        (takeAll ⟨[], dice.map (fun _ => false)⟩ (idxWhere (fun d => d != e) dice))
        (enumerate dice) = idxWhere (fun d => d == e) dice := by
      rw [availIdx_takeAll _ _ _ hbA, hfilters]
      rfl
    have hb1 : ∀ p ∈ enumerate dice,
        p.1 < (takeAll ⟨[], dice.map (fun _ => false)⟩
          (idxWhere (fun d => d != e) dice)).used.length := by
      intro p hp
      rw [takeAll_used_length]
      simpa using enumerate_idxLt dice p hp
    rw [passTakeChecked_spec (fun die => die == e) (enumerate dice)
      (n - ((idxWhere (fun d => d != e) dice).length : Int)) _ hnd hb1 (by omega), hav2]
    simp only []
    by_cases hB1 : n - ((idxWhere (fun d => d != e) dice).length : Int) ≤
        ((idxWhere (fun d => d == e) dice).length : Int)
    · have htkB : ((idxWhere (fun d => d == e) dice).take
          (n - ((idxWhere (fun d => d != e) dice).length : Int)).toNat).length
          = (n - ((idxWhere (fun d => d != e) dice).length : Int)).toNat := by
        rw [List.length_take]
        omega
      have hcond2 : ¬(n - ((idxWhere (fun d => d != e) dice).length : Int) -
          (((idxWhere (fun d => d == e) dice).take
            (n - ((idxWhere (fun d => d != e) dice).length : Int)).toNat).length : Int) > 0) := by
        rw [htkB]
        omega
      rw [if_neg hcond2]
      simp only []
      rw [if_neg hcond2]
      rw [if_pos (by omega : n ≤ (dice.length : Int))]
      have happ : (idxWhere (fun d => d != e) dice ++ idxWhere (fun d => d == e) dice).take n.toNat
          = idxWhere (fun d => d != e) dice ++ (idxWhere (fun d => d == e) dice).take
            (n - ((idxWhere (fun d => d != e) dice).length : Int)).toNat := by
        rw [List.take_append_eq_append_take]
        have h2 : n.toNat - (idxWhere (fun d => d != e) dice).length
            = (n - ((idxWhere (fun d => d != e) dice).length : Int)).toNat := by omega
        rw [htkA, h2]
      rw [happ]
      simp [takeAll_append, takeAll_dice_idx]
    · have htkB : (idxWhere (fun d => d == e) dice).take
          (n - ((idxWhere (fun d => d != e) dice).length : Int)).toNat
          = idxWhere (fun d => d == e) dice := by
        apply List.take_of_length_le
        omega
      rw [htkB]
      have hcond2 : n - ((idxWhere (fun d => d != e) dice).length : Int) -
          ((idxWhere (fun d => d == e) dice).length : Int) > 0 := by omega
      rw [if_pos hcond2]
      have hav3 : availIdx (fun die => die == ElementType.OMNI)
          (takeAll (takeAll ⟨[], dice.map (fun _ => false)⟩ (idxWhere (fun d => d != e) dice))
            (idxWhere (fun d => d == e) dice)) (enumerate dice) = [] := by
        rw [takeAll_append]
        rw [availIdx_takeAll _ _ _ (by
          intro i hi
          rcases List.mem_append.mp hi with h | h
          · exact hbA i h
          · exact idxWhere_lt _ dice i h)]
        have hfe : (enumerate dice).filter (fun p =>
            !((idxWhere (fun d => d != e) dice ++ idxWhere (fun d => d == e) dice).contains p.1)
            && (p.2 == ElementType.OMNI)) = [] := by
          rw [List.filter_eq_nil_iff]
          intro p hp
          have hmem : p.1 ∈ idxWhere (fun d => d != e) dice ++ idxWhere (fun d => d == e) dice := by
            by_cases hpe : (p.2 == e) = true
            · exact List.mem_append_right _ (mem_idxWhere.mpr ⟨p.2, by simpa using hp, hpe⟩)
            · have hpe2 : (p.2 != e) = true := by
                simp only [bne]
                simpa using hpe
              exact List.mem_append_left _ (mem_idxWhere.mpr ⟨p.2, by simpa using hp, hpe2⟩)
          have hct : (idxWhere (fun d => d != e) dice ++
              idxWhere (fun d => d == e) dice).contains p.1 = true := by simpa using hmem
          intro hcc
          rw [Bool.and_eq_true] at hcc
          have h1 := hcc.1
          rw [hct] at h1
          simp at h1
        rw [hfe]
        rfl
      rw [passTakeChecked_of_availIdx_nil _ _ _ _ hav3]
      simp only []
      rw [if_pos hcond2]
      rw [if_neg (by omega : ¬(n ≤ (dice.length : Int)))]
      rfl

/-- C3 counterexample: with dice `[OMNI, PYRO]`, character element `CRYO`
and cost `{ANY: 1}`, the matcher selects the Universal die (index 0) even
though the unaligned non-Universal `PYRO` die at index 1 alone suffices —
refuting the claimed ordering in which Universal dice are selected only when
the other two classes together are insufficient. -/
theorem matcher_any_key_universal_counterexample :
    get_dice_idx_greedy [ElementType.OMNI, ElementType.PYRO] [(ElementType.ANY, 1)]
        ElementType.CRYO = some [0] ∧
      ([ElementType.OMNI, ElementType.PYRO].getD 0 ElementType.NONE = ElementType.OMNI ∧
        [ElementType.OMNI, ElementType.PYRO].getD 1 ElementType.NONE ≠ ElementType.CRYO ∧
        [ElementType.OMNI, ElementType.PYRO].getD 1 ElementType.NONE ≠ ElementType.OMNI) := by
  exact ⟨rfl, rfl, by decide, by decide⟩

/-- Witness for the amended C3 at dice `[OMNI, PYRO, CRYO]`, character
element `CRYO`, `{ANY: 2}`: the non-`CRYO` dice (Universal included) are
taken first, in order. -/
theorem matcher_any_key_order_witness :
    (1 : Int) ≤ 2 ∧
      get_dice_idx_greedy [ElementType.OMNI, ElementType.PYRO, ElementType.CRYO]
          [(ElementType.ANY, 2)] ElementType.CRYO =
        (if (2 : Int) ≤ (([ElementType.OMNI, ElementType.PYRO, ElementType.CRYO] :
            List ElementType).length : Int) then
          some ((idxWhere (fun d => d != ElementType.CRYO)
              [ElementType.OMNI, ElementType.PYRO, ElementType.CRYO] ++
            idxWhere (fun d => d == ElementType.CRYO)
              [ElementType.OMNI, ElementType.PYRO, ElementType.CRYO]).take (2 : Int).toNat)
        else none) :=
  ⟨by decide,
    matcher_any_key_order [ElementType.OMNI, ElementType.PYRO, ElementType.CRYO]
      ElementType.CRYO 2 (by decide)⟩

/-! ## The SAME key when a single element suffices: claim C4 -/

theorem enumFrom_map_snd (k : Nat) (l : List ElementType) :
    (enumFrom k l).map (fun p => p.2) = l := by
  induction l generalizing k with
  | nil => rfl
  | cons d rest ih => simp [enumFrom, ih]

/-- On the fresh state every die is unused, so the counter sees the whole
dice list. -/
theorem unusedElems_fresh (dice : List ElementType) :
    unusedElems (enumerate dice) (dice.map (fun _ => false)) = dice := by
  unfold unusedElems
  have hfil : (enumerate dice).filter
      (fun p => !((dice.map (fun _ => false)).getD p.1 false)) = enumerate dice := by
    rw [List.filter_eq_self]
    intro p _
    simp [getD_map_false]
  rw [hfil]
  exact enumFrom_map_snd 0 dice

theorem firstOccKeys_mem {l : List ElementType} {e : ElementType} :
    e ∈ firstOccKeys l ↔ e ∈ l := by
  induction l with
  | nil => simp [firstOccKeys]
  | cons x rest ih =>
    simp only [firstOccKeys, List.mem_cons, List.mem_filter]
    constructor
    · rintro (rfl | ⟨h1, _⟩)
      · exact Or.inl rfl
      · exact Or.inr (ih.mp h1)
    · rintro (rfl | h)
      · exact Or.inl rfl
      · by_cases hx : e = x
        · exact Or.inl hx
        · exact Or.inr ⟨ih.mpr h, by simpa using hx⟩

/-- Every unused element appears in the counter with its exact count. -/
theorem counterItems_mem_of_mem {dice_enum : List (Nat × ElementType)} {used : List Bool}
    {ce e : ElementType} (he : e ∈ unusedElems dice_enum used) :
    (e, ((unusedElems dice_enum used).count e : Int)) ∈ counterItems dice_enum used ce := by
  unfold counterItems
  simp only [List.mem_map]
  refine ⟨e, ?_, rfl⟩
  have h1 : e ∈ firstOccKeys (unusedElems dice_enum used) := firstOccKeys_mem.mpr he
  set K := (if ElementType.OMNI ∈ firstOccKeys (unusedElems dice_enum used) then
      firstOccKeys (unusedElems dice_enum used)
    else firstOccKeys (unusedElems dice_enum used) ++ [ElementType.OMNI]) with hK
  have h2 : e ∈ K := by
    rw [hK]
    split
    · exact h1
    · exact List.mem_append_left _ h1
  split
  · exact h2
  · exact List.mem_append_left _ h2

/-- `findStep1` succeeds whenever some eligible item reaches the demanded
count. -/
theorem findStep1_total {char_element : ElementType} {val : Int} {l : List (ElementType × Int)}
    (h : ∃ kv ∈ l, ¬(kv.1 = ElementType.OMNI ∨ kv.1 = char_element) ∧ val ≤ kv.2) :
    ∃ e, findStep1 char_element val l = some e := by
  induction l with
  | nil =>
    obtain ⟨kv, hmem, _⟩ := h
    cases hmem
  | cons kv0 rest ih =>
    obtain ⟨elem0, cnt0⟩ := kv0
    simp only [findStep1]
    split
    next hsp =>
      apply ih
      obtain ⟨kv, hkvmem, hkv⟩ := h
      rcases List.mem_cons.mp hkvmem with rfl | hmem
      · exact absurd hsp hkv.1
      · exact ⟨kv, hmem, hkv⟩
    next hsp =>
      split
      · exact ⟨elem0, rfl⟩
      next hlt =>
        apply ih
        obtain ⟨kv, hkvmem, hkv⟩ := h
        rcases List.mem_cons.mp hkvmem with rfl | hmem
        · exact absurd hkv.2 (by simpa using hlt)
        · exact ⟨kv, hmem, hkv⟩

/-- An entry of `enumerate dice` reads back the die at its index. -/
theorem mem_enumFrom_getD {l : List ElementType} {k i : Nat} {d : ElementType}
    (h : (i, d) ∈ enumFrom k l) : l.getD (i - k) ElementType.NONE = d := by
  induction l generalizing k with
  | nil => cases h
  | cons x rest ih =>
    rcases (by simpa [enumFrom] using h : (i, d) = (k, x) ∨ (i, d) ∈ enumFrom (k + 1) rest)
      with hEq | hmem
    · obtain ⟨rfl, rfl⟩ : i = k ∧ d = x := by
        exact ⟨congrArg Prod.fst hEq, congrArg Prod.snd hEq⟩
      simp
    · have hk : k + 1 ≤ i := (mem_enumFrom hmem).1
      have := ih hmem
      have hik : i - k = (i - (k + 1)) + 1 := by omega
      rw [hik, List.getD_cons_succ]
      exact this

theorem mem_enumerate_getD {dice : List ElementType} {i : Nat} {d : ElementType}
    (h : (i, d) ∈ enumerate dice) : dice.getD i ElementType.NONE = d := by
  have := mem_enumFrom_getD h
  simpa using this

/-- C4: for a `SAME` key requiring `N ≥ 1` dice, whenever some single
element other than Universal (OMNI) and the character's element has at least
`N` dice, the matcher succeeds, consuming exactly `N` dice that all carry
one such element — hence no Universal die; in particular, for dice
`[PYRO, PYRO, OMNI, HYDRO]` with cost `{SAME: 2}` and character element
`CRYO`, it selects exactly the two `PYRO` indices. -/
theorem matcher_same_key_single_element (dice : List ElementType) (ce : ElementType) (N : Int)
    (elem : ElementType) (hN : 1 ≤ N) (helem1 : elem ≠ ElementType.OMNI) (helem2 : elem ≠ ce)
    (hcnt : N ≤ (dice.count elem : Int)) :
    (∃ sel e', get_dice_idx_greedy dice [(ElementType.SAME, N)] ce = some sel ∧
      (sel.length : Int) = N ∧ e' ≠ ElementType.OMNI ∧ e' ≠ ce ∧
      ∀ i ∈ sel, dice.getD i ElementType.NONE = e') ∧
    get_dice_idx_greedy [ElementType.PYRO, ElementType.PYRO, ElementType.OMNI,
      ElementType.HYDRO] [(ElementType.SAME, 2)] ElementType.CRYO = some [0, 1] := by
  refine ⟨?_, by decide⟩
  have hkey : ∀ st, processKey (enumerate dice) ce ElementType.SAME N st =
      processSame (enumerate dice) ce N st := by
    intro st
    unfold processKey
    rw [if_neg (by decide), if_neg (by decide), if_pos rfl]
  have hgo : get_dice_idx_greedy dice [(ElementType.SAME, N)] ce =
      (processSame (enumerate dice) ce N ⟨[], dice.map (fun _ => false)⟩).map
        (fun st => st.dice_idx) := by
    unfold get_dice_idx_greedy get_dice_idx_greedy_go
    rw [hkey]
    cases processSame (enumerate dice) ce N ⟨[], dice.map (fun _ => false)⟩ with
    | none => rfl
    | some st' => rfl
  have hfresh : unusedElems (enumerate dice)
      (⟨[], dice.map (fun _ => false)⟩ : MatchState).used = dice := unusedElems_fresh dice
  have hmemElem : elem ∈ unusedElems (enumerate dice)
      (⟨[], dice.map (fun _ => false)⟩ : MatchState).used := by
    rw [hfresh]
    have : 0 < dice.count elem := by omega
    exact List.count_pos_iff.mp this
  have hitem := @counterItems_mem_of_mem (enumerate dice)
    ((⟨[], dice.map (fun _ => false)⟩ : MatchState).used) ce elem hmemElem
  have hitem' : (elem, ((unusedElems (enumerate dice)
      (⟨[], dice.map (fun _ => false)⟩ : MatchState).used).count elem : Int)) ∈
      sortAsc (counterItems (enumerate dice)
        (⟨[], dice.map (fun _ => false)⟩ : MatchState).used ce) :=
    mem_sortAsc.mpr hitem
  obtain ⟨e', hfs1⟩ := @findStep1_total ce N _
    ⟨_, hitem', by
      constructor
      · rintro (h | h)
        · exact helem1 h
        · exact helem2 h
      · rw [hfresh]
        exact hcnt⟩
  obtain ⟨hne', c', hc', hcval⟩ := findStep1_some hfs1
  have hps : processSame (enumerate dice) ce N ⟨[], dice.map (fun _ => false)⟩ =
      some (passSame1 e' (enumerate dice) N ⟨[], dice.map (fun _ => false)⟩).2 := by
    unfold processSame
    simp only []
    rw [hfs1]
  have hsnd : c' = ((unusedElems (enumerate dice)
      (⟨[], dice.map (fun _ => false)⟩ : MatchState).used).count e' : Int) :=
    counterItems_snd (mem_sortAsc.mp hc')
  have havail : N ≤ availCnt e' (enumerate dice)
      (⟨[], dice.map (fun _ => false)⟩ : MatchState).used := by
    rw [hsnd, unusedElems_count_int] at hcval
    exact hcval
  obtain ⟨hz, t, ht, hlen, hmem⟩ := passSame1_count e' (enumerate dice) N
    ⟨[], dice.map (fun _ => false)⟩ _ (enumerate_idxNodup dice) hN havail rfl
  refine ⟨t, e', ?_, ?_, fun h => hne' (Or.inl h), fun h => hne' (Or.inr h), ?_⟩
  · rw [hgo, hps]
    simp only [Option.map_some']
    rw [ht]
    simp
  · exact hlen
  · intro i hi
    exact mem_enumerate_getD (hmem i hi)

/-- Witness for C4: dice `[PYRO, PYRO, OMNI, HYDRO]`, character `CRYO`,
`{SAME: 2}` — `PYRO` has two dice, so the general statement applies. -/
theorem matcher_same_key_single_element_witness :
    ((1 : Int) ≤ 2 ∧ ElementType.PYRO ≠ ElementType.OMNI ∧
      ElementType.PYRO ≠ ElementType.CRYO ∧
      (2 : Int) ≤ (([ElementType.PYRO, ElementType.PYRO, ElementType.OMNI,
        ElementType.HYDRO] : List ElementType).count ElementType.PYRO : Int)) ∧
    ((∃ sel e', get_dice_idx_greedy [ElementType.PYRO, ElementType.PYRO, ElementType.OMNI,
        ElementType.HYDRO] [(ElementType.SAME, 2)] ElementType.CRYO = some sel ∧
      (sel.length : Int) = 2 ∧ e' ≠ ElementType.OMNI ∧ e' ≠ ElementType.CRYO ∧
      ∀ i ∈ sel, [ElementType.PYRO, ElementType.PYRO, ElementType.OMNI,
        ElementType.HYDRO].getD i ElementType.NONE = e') ∧
    get_dice_idx_greedy [ElementType.PYRO, ElementType.PYRO, ElementType.OMNI,
      ElementType.HYDRO] [(ElementType.SAME, 2)] ElementType.CRYO = some [0, 1]) :=
  ⟨⟨by decide, by decide, by decide, by decide⟩,
    matcher_same_key_single_element [ElementType.PYRO, ElementType.PYRO, ElementType.OMNI,
      ElementType.HYDRO] ElementType.CRYO 2 ElementType.PYRO (by decide) (by decide)
      (by decide) (by decide)⟩

/-! ## The round-end policies, the multi-action cursor, and the concrete
attack policy -/

/-- The list comprehension `[CharPos(k) for k, character in
enumerate(player_info.characters) if character.character.alive]`, with the
enumeration index starting at `k`. -/
def alivePositionsFrom (k : Nat) : List CharacterInfo → List Nat
  | [] => []
  | c :: rest =>
    if c.character.alive then k :: alivePositionsFrom (k + 1) rest
    else alivePositionsFrom (k + 1) rest

def alivePositions (characters : List CharacterInfo) : List Nat :=
  alivePositionsFrom 0 characters

/-- `SimpleAgent.take_action_on_round_end`: switch to the first alive slot
when the active character is down, otherwise declare end.  `none` models the
uncaught `IndexError` (invalid active position, or `alive_positions[0]` on an
empty list). -/
def SimpleAgent_take_action_on_round_end (game_info : GameInfo) : Option Action :=
  let player_info := game_info.get_player_info
  let active_pos := player_info.active_character_position
  match player_info.characters[active_pos]? with
  | none => none
  | some character_info =>
    if character_info.character.health_point ≤ 0 then
      match (alivePositions player_info.characters).head? with
      | none => none
      | some p => some (Action.ChangeCharacterAction p [])
    else some Action.DeclareEndAction

/-- `GenericMultipleAction.yield_actions_on_round_end`: the generator is
embedded as the list of its yielded actions; the else branch explicitly
yields `DeclareEnd`. -/
def GenericMultipleAction_yield_actions_on_round_end (game_info : GameInfo) :
    Option (List Action) :=
  let player_info := game_info.get_player_info
  let active_pos := player_info.active_character_position
  match player_info.characters[active_pos]? with
  | none => none
  | some character_info =>
    if character_info.character.health_point ≤ 0 then
      match (alivePositions player_info.characters).head? with
      | none => none
      | some p => some [Action.ChangeCharacterAction p []]
    else some [Action.DeclareEndAction]

/-- The `NoActionAssigned` exception class. -/
inductive AgentError where
  | NoActionAssigned
deriving DecidableEq, Repr

/-- `MultipleActionAgent.take_action`: the in-flight iterator is embedded as
the list of its not-yet-produced items (`none` before any sequence starts).
If the current iterator yields (`some (a :: rest)`), return `a`; otherwise —
iterator absent or exhausted — derive a fresh sequence from the snapshot via
`take_multiple_actions` and return its first item, raising
`NoActionAssigned` when it yields nothing. -/
def MultipleActionAgent_take_action (take_multiple_actions : GameInfo → List Action)
    (current_iter : Option (List Action)) (game_info : GameInfo) :
    Except AgentError (Action × Option (List Action)) :=
  match current_iter with
  | some (a :: rest) => Except.ok (a, some rest)
  | _ =>
    match take_multiple_actions game_info with
    | [] => Except.error AgentError.NoActionAssigned
    | a :: rest => Except.ok (a, some rest)

/-- One named-card branch of `AttackOnlyAgent.take_action_on_play_cards`: if
the card is in hand, run the matcher on its fixed cost, emitting a
`UseCardAction` when the result is non-empty; otherwise fall through.  The
second component traces the cost mappings passed to the matcher. -/
def playCardsCardBranch (card_name : String) (card_cost : List (ElementType × Int))
    (target_type : EntityType) (player_id : PlayerID) (player_info : PlayerInfo)
    (character_element : ElementType) (active_pos : Nat)
    (next : Option Action × List (List (ElementType × Int))) :
    Option Action × List (List (ElementType × Int)) :=
  if player_info.hand_cards.contains card_name then
    let dice_idx := get_dice_idx_greedy_py player_info.dice_zone card_cost character_element
    if 0 < dice_idx.length then
      (some (Action.UseCardAction (player_info.hand_cards.indexOf card_name)
        [(player_id, target_type, active_pos)] dice_idx active_pos), [card_cost])
    else (next.1, card_cost :: next.2)
  else next

/-- The skill part of `AttackOnlyAgent.take_action_on_play_cards`: burst when
the stored power equals the burst's `POWER` cost (the dict access
`elemental_burst.costs[ElementType.POWER]` raises when absent — `none`),
then elemental skill, then normal attack, then declare end. -/
def playCardsSkillPhase (character_card : CharacterCard) (character_info : CharacterInfo)
    (elemental_burst : Skill) (current_dice : List ElementType) (active_pos : Nat)
    (player_id : PlayerID) (opponent_active_pos : Nat) :
    Option Action × List (List (ElementType × Int)) :=
  match lookupCost elemental_burst.costs ElementType.POWER with
  | none => (none, [])
  | some burst_power =>
    let burstTried := character_info.character.power = burst_power
    let dice_idx0 := if burstTried then
        get_dice_idx_greedy_py current_dice elemental_burst.costs character_card.element_type
      else []
    let skill_name0 := if 0 < dice_idx0.length then elemental_burst.name else ""
    let trace0 := if burstTried then [elemental_burst.costs] else []
    if dice_idx0 = ([] : List Nat) then
      match character_card.get_skill SkillType.ELEMENTAL_SKILL with
      | none => (none, trace0)
      | some elemental_skill =>
        let dice_idx1 := get_dice_idx_greedy_py current_dice elemental_skill.costs
          character_card.element_type
        let skill_name1 := if 0 < dice_idx1.length then elemental_skill.name else skill_name0
        let trace1 := trace0 ++ [elemental_skill.costs]
        if dice_idx1 = ([] : List Nat) then
          match character_card.get_skill SkillType.NORMAL_ATTACK with
          | none => (none, trace1)
          | some normal_attack =>
            let dice_idx2 := get_dice_idx_greedy_py current_dice normal_attack.costs
              character_card.element_type
            let skill_name2 := if 0 < dice_idx2.length then normal_attack.name else skill_name1
            let trace2 := trace1 ++ [normal_attack.costs]
            if dice_idx2 = ([] : List Nat) then (some Action.DeclareEndAction, trace2)
            else
              (some (Action.UseSkillAction active_pos skill_name2 dice_idx2
                [(player_id.opp, opponent_active_pos)]), trace2)
        else
          (some (Action.UseSkillAction active_pos skill_name1 dice_idx1
            [(player_id.opp, opponent_active_pos)]), trace1)
    else
      (some (Action.UseSkillAction active_pos skill_name0 dice_idx0
        [(player_id.opp, opponent_active_pos)]), trace0)

/-- `AttackOnlyAgent.take_action_on_play_cards`, instrumented with the list
of cost mappings it passes to `get_dice_idx_greedy`, in call order.  `none`
models an uncaught exception: invalid active slot, unknown character card,
`alive_positions[0]` on no survivors, a card without the requested skill, or
a burst cost mapping without a `POWER` entry. -/
def AttackOnlyAgent_take_action_on_play_cards
    (get_character_card : String → Option CharacterCard) (player_id : PlayerID)
    (game_info : GameInfo) : Option Action × List (List (ElementType × Int)) :=
  let player_info := game_info.get_player_info
  let active_pos := player_info.active_character_position
  match player_info.characters[active_pos]? with
  | none => (none, [])
  | some character_info =>
    match get_character_card character_info.character.name with
    | none => (none, [])
    | some character_card =>
      if character_info.character.health_point ≤ 0 then
        match (alivePositions player_info.characters).head? with
        | none => (none, [])
        | some p => (some (Action.ChangeCharacterAction p []), [])
      else
        match character_card.get_skill SkillType.ELEMENTAL_BURST with
        | none => (none, [])
        | some elemental_burst =>
          playCardsCardBranch "Kanten Senmyou Blessing" [(ElementType.CRYO, 2)]
            EntityType.CHARACTER player_id player_info character_card.element_type active_pos
            (playCardsCardBranch "Traveler\x27s Handy Sword" [(ElementType.SAME, 2)]
              EntityType.WEAPON player_id player_info character_card.element_type active_pos
              (playCardsCardBranch "Sacrificial Sword" [(ElementType.SAME, 3)]
                EntityType.WEAPON player_id player_info character_card.element_type active_pos
                (playCardsSkillPhase character_card character_info elemental_burst
                  player_info.dice_zone active_pos player_id
                  game_info.get_opponent_info.active_character_position)))

/-! ## Claims C5, C6, C7 -/

/-- Skipping a `POWER` key is the identity on the matcher state. -/
theorem processKey_power (dice_enum : List (Nat × ElementType)) (char_element : ElementType)
    (val : Int) (st : MatchState) :
    processKey dice_enum char_element ElementType.POWER val st = some st := by
  unfold processKey
  rw [if_neg (by decide), if_neg (by decide), if_neg (by decide)]

theorem get_dice_idx_greedy_go_cons (dice_enum : List (Nat × ElementType))
    (ce key : ElementType) (val : Int) (rest : List (ElementType × Int)) (st : MatchState) :
    get_dice_idx_greedy_go dice_enum ce ((key, val) :: rest) st =
      match processKey dice_enum ce key val st with
      | none => none
      | some st' => get_dice_idx_greedy_go dice_enum ce rest st' := rfl

theorem get_dice_idx_greedy_go_filter_power (dice_enum : List (Nat × ElementType))
    (char_element : ElementType) (cost : List (ElementType × Int)) :
    ∀ st, get_dice_idx_greedy_go dice_enum char_element cost st =
      get_dice_idx_greedy_go dice_enum char_element
        (cost.filter (fun kv => kv.1 != ElementType.POWER)) st := by
  induction cost with
  | nil => intro st; rfl
  | cons kv rest ih =>
    intro st
    obtain ⟨key, val⟩ := kv
    by_cases hp : key = ElementType.POWER
    · subst hp
      rw [List.filter_cons, if_neg (by simp)]
      rw [get_dice_idx_greedy_go_cons, processKey_power]
      exact ih st
    · rw [List.filter_cons, if_pos (by simpa using hp)]
      rw [get_dice_idx_greedy_go_cons, get_dice_idx_greedy_go_cons]
      cases hpk : processKey dice_enum char_element key val st with
      | none => rfl
      | some st1 => exact ih st1

/-- A concrete character card whose elemental burst costs 3 CRYO dice plus
2 Power, exhibiting the burst invocation of the matcher. -/
def testBurstCard : CharacterCard :=
  ⟨ElementType.CRYO,
    [⟨"Test Normal", SkillType.NORMAL_ATTACK, [(ElementType.CRYO, 1), (ElementType.ANY, 2)]⟩,
     ⟨"Test Skill", SkillType.ELEMENTAL_SKILL, [(ElementType.CRYO, 3)]⟩,
     ⟨"Test Burst", SkillType.ELEMENTAL_BURST, [(ElementType.CRYO, 3), (ElementType.POWER, 2)]⟩]⟩

/-- A snapshot whose active character has exactly the burst's stored-power
cost and three CRYO dice, so the attack policy reaches the burst branch. -/
def testBurstGameInfo : GameInfo :=
  ⟨GameStatus.RUNNING, GamePhase.PLAY_CARDS,
    ⟨[⟨⟨"Tester", 10, true, 2⟩⟩], 0,
      [ElementType.CRYO, ElementType.CRYO, ElementType.CRYO], []⟩,
    ⟨[⟨⟨"Opp", 10, true, 0⟩⟩], 0, [], []⟩⟩

/-- C5 counterexample: the attack policy's burst branch passes the burst's
full cost mapping — `POWER` entry included — to `get_dice_idx_greedy`: on
`testBurstGameInfo` the one matcher invocation receives
`{CRYO: 3, POWER: 2}`, which has a `POWER`-keyed entry. -/
theorem burst_power_key_passed_counterexample :
    (AttackOnlyAgent_take_action_on_play_cards (fun _ => some testBurstCard) PlayerID.P1
        testBurstGameInfo).2 = [[(ElementType.CRYO, 3), (ElementType.POWER, 2)]] ∧
      lookupCost [(ElementType.CRYO, 3), (ElementType.POWER, 2)] ElementType.POWER = some 2 :=
  ⟨rfl, rfl⟩

/-- C5 (amended): the cost mapping handed to the matcher may contain a
`POWER`-keyed entry (the burst invocation passes the burst's full costs),
but the matcher never resolves a `POWER` key against dice: its result is
unchanged when every `POWER` entry is removed, on every dice sequence, cost
specification, and character element. -/
theorem matcher_never_resolves_power (dice : List ElementType)
    (cost : List (ElementType × Int)) (char_element : ElementType) :
    get_dice_idx_greedy dice cost char_element =
      get_dice_idx_greedy dice (cost.filter (fun kv => kv.1 != ElementType.POWER))
        char_element := by
  unfold get_dice_idx_greedy
  rw [get_dice_idx_greedy_go_filter_power]

/-- C6: the multi-action cursor.  With a policy yielding two actions: the
first call (no sequence in flight) derives a sequence and returns the first
action; the second call returns the second action without deriving anything
— its result is the same for every policy and snapshot; the third call
(sequence exhausted) derives a fresh sequence from the snapshot passed to
that call, never re-yielding stale actions. -/
theorem multi_action_cursor_sequencing (policy : GameInfo → List Action)
    (gi1 gi3 : GameInfo) (a1 a2 : Action) (h : policy gi1 = [a1, a2]) :
    MultipleActionAgent_take_action policy none gi1 = Except.ok (a1, some [a2]) ∧
    (∀ (policy2 : GameInfo → List Action) (gi2 : GameInfo),
      MultipleActionAgent_take_action policy2 (some [a2]) gi2 = Except.ok (a2, some [])) ∧
    (∀ b rest, policy gi3 = b :: rest →
      MultipleActionAgent_take_action policy (some []) gi3 = Except.ok (b, some rest)) ∧
    (policy gi3 = [] →
      MultipleActionAgent_take_action policy (some []) gi3 =
        Except.error AgentError.NoActionAssigned) := by
  refine ⟨?_, ?_, ?_, ?_⟩
  · unfold MultipleActionAgent_take_action
    rw [h]
  · intro policy2 gi2
    rfl
  · intro b rest hb
    unfold MultipleActionAgent_take_action
    rw [hb]
  · intro hnil
    unfold MultipleActionAgent_take_action
    rw [hnil]

/-- Witness for C6: a policy yielding `[ChangeCards [], DeclareEnd]` on a
concrete snapshot. -/
theorem multi_action_cursor_sequencing_witness :
    ((fun _ : GameInfo => [Action.ChangeCardsAction [], Action.DeclareEndAction])
        (⟨GameStatus.RUNNING, GamePhase.PLAY_CARDS, ⟨[], 0, [], []⟩, ⟨[], 0, [], []⟩⟩ :
          GameInfo) = [Action.ChangeCardsAction [], Action.DeclareEndAction]) ∧
    MultipleActionAgent_take_action
        (fun _ => [Action.ChangeCardsAction [], Action.DeclareEndAction]) none
        (⟨GameStatus.RUNNING, GamePhase.PLAY_CARDS, ⟨[], 0, [], []⟩, ⟨[], 0, [], []⟩⟩ :
          GameInfo) =
      Except.ok (Action.ChangeCardsAction [], some [Action.DeclareEndAction]) :=
  ⟨rfl, (multi_action_cursor_sequencing
    (fun _ => [Action.ChangeCardsAction [], Action.DeclareEndAction])
    (⟨GameStatus.RUNNING, GamePhase.PLAY_CARDS, ⟨[], 0, [], []⟩, ⟨[], 0, [], []⟩⟩ : GameInfo)
    (⟨GameStatus.RUNNING, GamePhase.PLAY_CARDS, ⟨[], 0, [], []⟩, ⟨[], 0, [], []⟩⟩ : GameInfo)
    (Action.ChangeCardsAction []) Action.DeclareEndAction rfl).1⟩

/-- C7: when no sequence is in flight (fresh cursor or exhausted iterator),
an empty freshly derived sequence raises the named `NoActionAssigned`
failure, and a non-empty one returns its first action normally. -/
theorem multi_action_no_action_failure (policy : GameInfo → List Action) (gi : GameInfo)
    (current_iter : Option (List Action))
    (hfresh : current_iter = none ∨ current_iter = some []) :
    (policy gi = [] → MultipleActionAgent_take_action policy current_iter gi =
      Except.error AgentError.NoActionAssigned) ∧
    (∀ a rest, policy gi = a :: rest →
      MultipleActionAgent_take_action policy current_iter gi = Except.ok (a, some rest)) := by
  constructor
  · intro hnil
    rcases hfresh with rfl | rfl <;>
      · unfold MultipleActionAgent_take_action
        rw [hnil]
  · intro a rest ha
    rcases hfresh with rfl | rfl <;>
      · unfold MultipleActionAgent_take_action
        rw [ha]

/-- Witness for C7: the empty policy raises `NoActionAssigned` on a fresh
cursor. -/
theorem multi_action_no_action_failure_witness :
    ((none : Option (List Action)) = none ∨ (none : Option (List Action)) = some []) ∧
    MultipleActionAgent_take_action (fun _ => []) none
        (⟨GameStatus.RUNNING, GamePhase.ROUND_END, ⟨[], 0, [], []⟩, ⟨[], 0, [], []⟩⟩ :
          GameInfo) =
      Except.error AgentError.NoActionAssigned :=
  ⟨Or.inl rfl, (multi_action_no_action_failure (fun _ => []) _ none (Or.inl rfl)).1 rfl⟩

/-! ## Claims C8, C10 -/

/-- `alive_positions[0]` is the least alive slot index: characterization of
`head?` of the alive-position comprehension. -/
theorem alivePositionsFrom_head (chars : List CharacterInfo) :
    ∀ (k j : Nat) (cj : CharacterInfo), chars[j]? = some cj → cj.character.alive = true →
    (∀ (m : Nat) (cm : CharacterInfo), m < j → chars[m]? = some cm →
      cm.character.alive = false) →
    (alivePositionsFrom k chars).head? = some (k + j) := by
  induction chars with
  | nil =>
    intro k j cj hj _ _
    simp at hj
  | cons c rest ih =>
    intro k j cj hj halive hmin
    cases j with
    | zero =>
      obtain rfl : c = cj := by simpa using hj
      simp [alivePositionsFrom, halive]
    | succ j' =>
      have hc : c.character.alive = false := hmin 0 c (Nat.succ_pos _) (by simp)
      have hrec := ih (k + 1) j' cj (by simpa using hj) halive (by
        intro m cm hm hcm
        exact hmin (m + 1) cm (by omega) (by simpa using hcm))
      simp only [alivePositionsFrom, hc]
      rw [if_neg (by simp)]
      rw [hrec]
      congr 1
      omega

/-- The alive-position comprehension is empty exactly when no slot's alive
flag is set. -/
theorem alivePositionsFrom_eq_nil (chars : List CharacterInfo) :
    ∀ k, alivePositionsFrom k chars = [] ↔ ∀ c ∈ chars, c.character.alive = false := by
  induction chars with
  | nil => intro k; simp [alivePositionsFrom]
  | cons c rest ih =>
    intro k
    simp only [alivePositionsFrom]
    by_cases hc : c.character.alive
    · rw [if_pos hc]
      simp [hc]
    · rw [if_neg hc]
      rw [ih (k + 1)]
      constructor
      · intro h c' hc'
        rcases List.mem_cons.mp hc' with rfl | hmem
        · simpa using hc
        · exact h c' hmem
      · intro h c' hc'
        exact h c' (List.mem_cons_of_mem _ hc')

/-- C8: the single-action RoundEnd default.  If the active character's
health is ≤ 0, it returns a character switch, carrying no dice, to the
first slot in slot order whose alive flag is set; otherwise it returns
DeclareEnd.  In particular, when the active slot's health is ≤ 0 and exactly
one slot is alive, it switches to that slot and never declares end. -/
theorem round_end_default_policy (game_info : GameInfo) (ci : CharacterInfo)
    (hci : game_info.player_info.characters[game_info.player_info.active_character_position]?
      = some ci) :
    (0 < ci.character.health_point →
      SimpleAgent_take_action_on_round_end game_info = some Action.DeclareEndAction) ∧
    (ci.character.health_point ≤ 0 →
      ∀ (j : Nat) (cj : CharacterInfo),
        game_info.player_info.characters[j]? = some cj → cj.character.alive = true →
        (∀ (m : Nat) (cm : CharacterInfo), m < j →
          game_info.player_info.characters[m]? = some cm → cm.character.alive = false) →
        SimpleAgent_take_action_on_round_end game_info =
          some (Action.ChangeCharacterAction j [])) ∧
    (ci.character.health_point ≤ 0 →
      ∀ (j : Nat) (cj : CharacterInfo),
        game_info.player_info.characters[j]? = some cj → cj.character.alive = true →
        (∀ (m : Nat) (cm : CharacterInfo), m ≠ j →
          game_info.player_info.characters[m]? = some cm → cm.character.alive = false) →
        SimpleAgent_take_action_on_round_end game_info =
            some (Action.ChangeCharacterAction j []) ∧
          SimpleAgent_take_action_on_round_end game_info ≠ some Action.DeclareEndAction) := by
  have hfirst : ci.character.health_point ≤ 0 →
      ∀ (j : Nat) (cj : CharacterInfo),
        game_info.player_info.characters[j]? = some cj → cj.character.alive = true →
        (∀ (m : Nat) (cm : CharacterInfo), m < j →
          game_info.player_info.characters[m]? = some cm → cm.character.alive = false) →
        SimpleAgent_take_action_on_round_end game_info =
          some (Action.ChangeCharacterAction j []) := by
    intro hhp j cj hj halive hmin
    unfold SimpleAgent_take_action_on_round_end
    simp only [GameInfo.get_player_info]
    rw [hci]
    simp only []
    rw [if_pos hhp]
    unfold alivePositions
    rw [alivePositionsFrom_head game_info.player_info.characters 0 j cj hj halive hmin]
    simp
  refine ⟨?_, hfirst, ?_⟩
  · intro hhp
    unfold SimpleAgent_take_action_on_round_end
    simp only [GameInfo.get_player_info]
    rw [hci]
    simp only []
    rw [if_neg (by omega)]
  · intro hhp j cj hj halive huniq
    have h1 := hfirst hhp j cj hj halive
      (fun m cm hm hcm => huniq m cm (by omega) hcm)
    refine ⟨h1, ?_⟩
    rw [h1]
    simp

/-- Witness for C8 on a two-slot snapshot: the active slot 0 is down and
dead, slot 1 is alive, so the policy switches to slot 1. -/
theorem round_end_default_policy_witness :
    ((⟨GameStatus.RUNNING, GamePhase.ROUND_END,
        ⟨[⟨⟨"A", 0, false, 0⟩⟩, ⟨⟨"B", 5, true, 0⟩⟩], 0, [], []⟩,
        ⟨[], 0, [], []⟩⟩ : GameInfo).player_info.characters[0]?
      = some ⟨⟨"A", 0, false, 0⟩⟩) ∧
    SimpleAgent_take_action_on_round_end
        (⟨GameStatus.RUNNING, GamePhase.ROUND_END,
          ⟨[⟨⟨"A", 0, false, 0⟩⟩, ⟨⟨"B", 5, true, 0⟩⟩], 0, [], []⟩,
          ⟨[], 0, [], []⟩⟩ : GameInfo) = some (Action.ChangeCharacterAction 1 []) := by
  refine ⟨rfl, ?_⟩
  exact ((round_end_default_policy
    (⟨GameStatus.RUNNING, GamePhase.ROUND_END,
      ⟨[⟨⟨"A", 0, false, 0⟩⟩, ⟨⟨"B", 5, true, 0⟩⟩], 0, [], []⟩,
      ⟨[], 0, [], []⟩⟩ : GameInfo) ⟨⟨"A", 0, false, 0⟩⟩ rfl).2.2 (by decide) 1
    ⟨⟨"B", 5, true, 0⟩⟩ rfl rfl (by
      intro m cm hm hcm
      rcases m with _ | m1
      · obtain rfl := Option.some.inj
          (show some (⟨⟨"A", 0, false, 0⟩⟩ : CharacterInfo) = some cm from hcm)
        rfl
      · rcases m1 with _ | m2
        · exact absurd rfl hm
        · exact absurd hcm (by simp))).1

/-- C10: the defeated-character branches read `alive_positions[0]`.  When
the active character's health is ≤ 0, all three of the single-action
RoundEnd default, the generic multi-action RoundEnd handler, and the attack
policy's PlayCards defeated branch are undefined (uncaught IndexError,
embedded `none`) on a snapshot with no alive character, and defined whenever
some slot is alive (for PlayCards, provided the character-card lookup
itself succeeds). -/
theorem defeated_branch_alive_precondition (game_info : GameInfo) (ci : CharacterInfo)
    (get_character_card : String → Option CharacterCard) (player_id : PlayerID)
    (hci : game_info.player_info.characters[game_info.player_info.active_character_position]?
      = some ci)
    (hhp : ci.character.health_point ≤ 0) :
    ((∀ c ∈ game_info.player_info.characters, c.character.alive = false) →
      SimpleAgent_take_action_on_round_end game_info = none ∧
      GenericMultipleAction_yield_actions_on_round_end game_info = none ∧
      (AttackOnlyAgent_take_action_on_play_cards get_character_card player_id game_info).1
        = none) ∧
    ((∃ c ∈ game_info.player_info.characters, c.character.alive = true) →
      (∃ j, SimpleAgent_take_action_on_round_end game_info =
        some (Action.ChangeCharacterAction j [])) ∧
      (∃ j, GenericMultipleAction_yield_actions_on_round_end game_info =
        some [Action.ChangeCharacterAction j []]) ∧
      (∀ cc, get_character_card ci.character.name = some cc →
        ∃ j, (AttackOnlyAgent_take_action_on_play_cards get_character_card player_id
          game_info).1 = some (Action.ChangeCharacterAction j []))) := by
  constructor
  · intro hdead
    have hnil : alivePositions game_info.player_info.characters = [] :=
      (alivePositionsFrom_eq_nil game_info.player_info.characters 0).mpr hdead
    have hhead : (alivePositions game_info.player_info.characters).head? = none := by
      rw [hnil]
      rfl
    refine ⟨?_, ?_, ?_⟩
    · unfold SimpleAgent_take_action_on_round_end
      simp only [GameInfo.get_player_info]
      rw [hci]
      simp only []
      rw [if_pos hhp, hhead]
    · unfold GenericMultipleAction_yield_actions_on_round_end
      simp only [GameInfo.get_player_info]
      rw [hci]
      simp only []
      rw [if_pos hhp, hhead]
    · unfold AttackOnlyAgent_take_action_on_play_cards
      simp only [GameInfo.get_player_info]
      rw [hci]
      simp only []
      cases hcc : get_character_card ci.character.name with
      | none => rfl
      | some cc =>
        simp only []
        rw [if_pos hhp, hhead]
  · intro hex
    have hne : alivePositions game_info.player_info.characters ≠ [] := by
      intro hnil
      obtain ⟨c, hc, hcal⟩ := hex
      have := (alivePositionsFrom_eq_nil game_info.player_info.characters 0).mp hnil c hc
      rw [hcal] at this
      simp at this
    obtain ⟨j, rest, hl⟩ : ∃ j rest,
        alivePositions game_info.player_info.characters = j :: rest := by
      cases hl : alivePositions game_info.player_info.characters with
      | nil => exact absurd hl hne
      | cons j rest => exact ⟨j, rest, rfl⟩
    have hhead : (alivePositions game_info.player_info.characters).head? = some j := by
      rw [hl]
      rfl
    refine ⟨⟨j, ?_⟩, ⟨j, ?_⟩, ?_⟩
    · unfold SimpleAgent_take_action_on_round_end
      simp only [GameInfo.get_player_info]
      rw [hci]
      simp only []
      rw [if_pos hhp, hhead]
    · unfold GenericMultipleAction_yield_actions_on_round_end
      simp only [GameInfo.get_player_info]
      rw [hci]
      simp only []
      rw [if_pos hhp, hhead]
    · intro cc hcc
      refine ⟨j, ?_⟩
      unfold AttackOnlyAgent_take_action_on_play_cards
      simp only [GameInfo.get_player_info]
      rw [hci]
      simp only []
      rw [hcc]
      simp only []
      rw [if_pos hhp, hhead]

/-- Witness for C10 at two concrete snapshots: active dead with no
survivors (all three undefined) and active dead with slot 1 alive (all
three defined). -/
theorem defeated_branch_alive_precondition_witness :
    (SimpleAgent_take_action_on_round_end
        (⟨GameStatus.RUNNING, GamePhase.ROUND_END,
          ⟨[⟨⟨"A", 0, false, 0⟩⟩], 0, [], []⟩, ⟨[], 0, [], []⟩⟩ : GameInfo) = none ∧
      GenericMultipleAction_yield_actions_on_round_end
        (⟨GameStatus.RUNNING, GamePhase.ROUND_END,
          ⟨[⟨⟨"A", 0, false, 0⟩⟩], 0, [], []⟩, ⟨[], 0, [], []⟩⟩ : GameInfo) = none ∧
      (AttackOnlyAgent_take_action_on_play_cards (fun _ => some testBurstCard) PlayerID.P1
        (⟨GameStatus.RUNNING, GamePhase.ROUND_END,
          ⟨[⟨⟨"A", 0, false, 0⟩⟩], 0, [], []⟩, ⟨[], 0, [], []⟩⟩ : GameInfo)).1 = none) ∧
    (∃ j, SimpleAgent_take_action_on_round_end
        (⟨GameStatus.RUNNING, GamePhase.ROUND_END,
          ⟨[⟨⟨"A", 0, false, 0⟩⟩, ⟨⟨"B", 5, true, 0⟩⟩], 0, [], []⟩, ⟨[], 0, [], []⟩⟩ :
            GameInfo) = some (Action.ChangeCharacterAction j [])) := by
  constructor
  · exact (defeated_branch_alive_precondition
      (⟨GameStatus.RUNNING, GamePhase.ROUND_END,
        ⟨[⟨⟨"A", 0, false, 0⟩⟩], 0, [], []⟩, ⟨[], 0, [], []⟩⟩ : GameInfo)
      ⟨⟨"A", 0, false, 0⟩⟩ (fun _ => some testBurstCard) PlayerID.P1 rfl (by decide)).1
      (by
        intro c hc
        obtain rfl : c = ⟨⟨"A", 0, false, 0⟩⟩ := by simpa using hc
        rfl)
  · exact ((defeated_branch_alive_precondition
      (⟨GameStatus.RUNNING, GamePhase.ROUND_END,
        ⟨[⟨⟨"A", 0, false, 0⟩⟩, ⟨⟨"B", 5, true, 0⟩⟩], 0, [], []⟩, ⟨[], 0, [], []⟩⟩ :
          GameInfo)
      ⟨⟨"A", 0, false, 0⟩⟩ (fun _ => some testBurstCard) PlayerID.P1 rfl (by decide)).2
      ⟨⟨⟨"B", 5, true, 0⟩⟩, by simp, rfl⟩).1

/-! ## Claim C9 -/

/-- The result of a policy never carries an empty dice selection on a
matcher-path action (`UseCardAction` or `UseSkillAction`). -/
def emittedDiceNonempty (r : Option Action) : Prop :=
  ∀ a, r = some a →
    (∀ ci ct di cup, a = Action.UseCardAction ci ct di cup → di ≠ []) ∧
    (∀ up sn di ts, a = Action.UseSkillAction up sn di ts → di ≠ [])

theorem emittedDiceNonempty_none : emittedDiceNonempty none :=
  fun _ ha => absurd ha (by simp)

theorem emittedDiceNonempty_skill (up : Nat) (sn : String) (di : List Nat)
    (ts : List (PlayerID × Nat)) (hdi : di ≠ []) :
    emittedDiceNonempty (some (Action.UseSkillAction up sn di ts)) := by
  intro a ha
  obtain rfl := Option.some.inj ha
  refine ⟨fun ci ct di' cup hEq => absurd hEq (by simp), fun up' sn' di' ts' hEq => ?_⟩
  injection hEq with h1 h2 h3 h4
  subst h3
  exact hdi

theorem emittedDiceNonempty_card (cidx : Nat) (ct : List (PlayerID × EntityType × Nat))
    (di : List Nat) (cup : Nat) (hdi : di ≠ []) :
    emittedDiceNonempty (some (Action.UseCardAction cidx ct di cup)) := by
  intro a ha
  obtain rfl := Option.some.inj ha
  refine ⟨fun ci' ct' di' cup' hEq => ?_, fun up' sn' di' ts' hEq => absurd hEq (by simp)⟩
  injection hEq with h1 h2 h3 h4
  subst h3
  exact hdi

theorem emittedDiceNonempty_declare_end : emittedDiceNonempty (some Action.DeclareEndAction) := by
  intro a ha
  obtain rfl := Option.some.inj ha
  exact ⟨fun ci ct di cup hEq => absurd hEq (by simp),
    fun up sn di ts hEq => absurd hEq (by simp)⟩

theorem emittedDiceNonempty_change_character (p : Nat) (d : List Nat) :
    emittedDiceNonempty (some (Action.ChangeCharacterAction p d)) := by
  intro a ha
  obtain rfl := Option.some.inj ha
  exact ⟨fun ci ct di cup hEq => absurd hEq (by simp),
    fun up sn di ts hEq => absurd hEq (by simp)⟩

/-- A named-card branch only emits a card action when the matcher returned a
non-empty selection. -/
theorem playCardsCardBranch_dice_nonempty (card_name : String)
    (card_cost : List (ElementType × Int)) (target_type : EntityType) (player_id : PlayerID)
    (player_info : PlayerInfo) (character_element : ElementType) (active_pos : Nat)
    (next : Option Action × List (List (ElementType × Int)))
    (hnext : emittedDiceNonempty next.1) :
    emittedDiceNonempty (playCardsCardBranch card_name card_cost target_type player_id
      player_info character_element active_pos next).1 := by
  unfold playCardsCardBranch
  split
  · simp only []
    split
    next hlen =>
      apply emittedDiceNonempty_card
      intro hnil
      rw [hnil] at hlen
      simp at hlen
    · exact hnext
  · exact hnext

/-- The skill phase only emits a skill action when the matcher returned a
non-empty selection. -/
theorem playCardsSkillPhase_dice_nonempty (character_card : CharacterCard)
    (character_info : CharacterInfo) (elemental_burst : Skill)
    (current_dice : List ElementType) (active_pos : Nat) (player_id : PlayerID)
    (opponent_active_pos : Nat) :
    emittedDiceNonempty (playCardsSkillPhase character_card character_info elemental_burst
      current_dice active_pos player_id opponent_active_pos).1 := by
  unfold playCardsSkillPhase
  simp only []
  repeat' split
  all_goals
    first
      | exact emittedDiceNonempty_none
      | exact emittedDiceNonempty_declare_end
      | (apply emittedDiceNonempty_skill; assumption)

/-- The attack policy never emits a matcher-path action with an empty dice
selection: every emission site tests `len(dice_idx) > 0`. -/
theorem play_cards_emitted_dice_nonempty (get_character_card : String → Option CharacterCard)
    (player_id : PlayerID) (game_info : GameInfo) :
    emittedDiceNonempty
      (AttackOnlyAgent_take_action_on_play_cards get_character_card player_id game_info).1 := by
  unfold AttackOnlyAgent_take_action_on_play_cards
  simp only []
  split
  · exact emittedDiceNonempty_none
  · split
    · exact emittedDiceNonempty_none
    · split
      · split
        · exact emittedDiceNonempty_none
        · exact emittedDiceNonempty_change_character _ _
      · split
        · exact emittedDiceNonempty_none
        · exact playCardsCardBranch_dice_nonempty _ _ _ _ _ _ _ _
            (playCardsCardBranch_dice_nonempty _ _ _ _ _ _ _ _
              (playCardsCardBranch_dice_nonempty _ _ _ _ _ _ _ _
                (playCardsSkillPhase_dice_nonempty _ _ _ _ _ _ _)))

/-- C9 counterexample: a cost specification whose non-`POWER` keys all
require zero dice is not always indistinguishable from failure — with dice
`[PYRO]` and `{PYRO: 0}` the matcher returns the non-empty selection `[0]`. -/
theorem zero_requirement_distinguishable_counterexample :
    get_dice_idx_greedy_py [ElementType.PYRO] [(ElementType.PYRO, 0)] ElementType.NONE
        = [0] ∧
      ([0] : List Nat) ≠ ([] : List Nat) :=
  ⟨rfl, by decide⟩

/-- C9 (amended): the matcher's public interface encodes Infeasible as the
empty index list, so a resolution that legitimately needs zero dice (an
empty cost specification, or one with no non-`POWER` keys, such as a
`POWER`-only one) is indistinguishable from failure; and every matcher-path
caller in the attack policy tests `len(dice_idx) > 0`, so an action whose
dice selection is empty is never emitted via the matcher path. -/
theorem infeasible_empty_list_encoding :
    (∀ (D : List ElementType) (e : ElementType), get_dice_idx_greedy_py D [] e = []) ∧
    (∀ (D : List ElementType) (e : ElementType) (k : Int),
      get_dice_idx_greedy_py D [(ElementType.POWER, k)] e = []) ∧
    (∀ (D : List ElementType) (C : List (ElementType × Int)) (e : ElementType),
      get_dice_idx_greedy D C e = none → get_dice_idx_greedy_py D C e = []) ∧
    (∀ (get_character_card : String → Option CharacterCard) (player_id : PlayerID)
      (game_info : GameInfo),
      emittedDiceNonempty
        (AttackOnlyAgent_take_action_on_play_cards get_character_card player_id
          game_info).1) := by
  refine ⟨fun D e => rfl, fun D e k => ?_, fun D C e h => ?_, play_cards_emitted_dice_nonempty⟩
  · unfold get_dice_idx_greedy_py get_dice_idx_greedy
    rw [get_dice_idx_greedy_go_cons, processKey_power]
    rfl
  · unfold get_dice_idx_greedy_py
    rw [h]
    rfl

/-- Witness for C9: a failing invocation (no dice, one `PYRO` owed) and a
legitimately empty invocation both return `[]`. -/
theorem infeasible_empty_list_encoding_witness :
    get_dice_idx_greedy ([] : List ElementType) [(ElementType.PYRO, 1)] ElementType.NONE
        = none ∧
      get_dice_idx_greedy_py ([] : List ElementType) [(ElementType.PYRO, 1)]
        ElementType.NONE = [] ∧
      get_dice_idx_greedy_py [ElementType.HYDRO] ([] : List (ElementType × Int))
        ElementType.NONE = [] :=
  ⟨by decide,
    infeasible_empty_list_encoding.2.2.1 [] [(ElementType.PYRO, 1)] ElementType.NONE
      (by decide),
    infeasible_empty_list_encoding.1 [ElementType.HYDRO] ElementType.NONE⟩

end Gisim
